import Mathlib

/-!
# Verification of the SSSP core of `Sssp-vs-Dijkstra`

Shallow embedding of the TypeScript sources
`src/algorithms/MinHeap.ts`, `src/algorithms/AdaptiveFrontier.ts` and
`src/algorithms/NewSSSP.ts`.

Modelling conventions:
* JavaScript numbers that hold distances are modelled by `WithTop ℤ`
  (`⊤` plays the role of `Infinity`; all weights occurring in the
  repository are integers, and the algorithms only use `+`, `<`, `≤`
  and `min` on distances, so the embedding over `ℤ` is exact).
* JavaScript `Map`/`Set` iteration is in insertion order; both are
  modelled by association lists / duplicate-free lists that append new
  members at the end, which reproduces that order exactly.
  `Map.set` on an existing key keeps the key's position; on a fresh key
  it appends — `fSet`/`posSet` below mirror this.
* `Array.prototype.sort` is stable; it is modelled by a stable
  insertion sort (`List.insertionSort` inserts ties in front of equal
  later elements, which keeps the original relative order).
* The single mutable solver state (`dist`, `pred`, `complete` arrays of
  `NewSSSP`) is threaded explicitly as a `SState` value.
* Loops whose termination is not structural (`baseCase`'s Dijkstra
  loop, the predecessor walk of `findLargeTreeRoots`, the pull loop of
  `BMSSP`) take an explicit fuel argument and return `none` exactly
  when the fuel runs out, so a `some` result is a faithful terminating
  run of the JavaScript code.
* Step/visualization bookkeeping (`addStep`, `steps`, statistics
  counters, `performance.now`) reads but never writes the solver state
  and is dropped from the embedding.
-/

/-- Distances as stored in JS numbers: an integer or `Infinity`. -/
abbrev XDist := WithTop ℤ

/-- The graph interface consumed by the solvers: a vertex count and, per
vertex, the ordered adjacency list of `(target, weight)` pairs
(`graph.adjacencyList.get(u) || []`). -/
structure Graph where
  n : ℕ
  adj : ℕ → List (ℕ × ℤ)

/-- The shared mutable solver state of `NewSSSP`: `dist`, `pred` (with the
`-1` sentinel kept as in the source) and `complete`.  Arrays are modelled
as total functions, which is exact as long as every index actually read
is `< n` — true for every well-formed graph.  Malformed graphs with
out-of-range edge targets make the source read `undefined`, whose JS
comparison semantics this total model does not capture; they are handled
by the array-based `SStateA` model below. -/
structure SState where
  dist : ℕ → XDist
  pred : ℕ → ℤ
  complete : ℕ → Bool

/-- Point update of a function, i.e. a single JS array-cell write. -/
def upd {α : Type} (f : ℕ → α) (a : ℕ) (v : α) : ℕ → α :=
  fun x => if x = a then v else f x

/-- `Math.min` on distances (as used for `B_prime`). -/
def minE (a b : XDist) : XDist := if a ≤ b then a else b

/-- JS `Set.add`: append if not already present. -/
def addUnique (l : List ℕ) (v : ℕ) : List ℕ :=
  if l.contains v then l else l ++ [v]

/-- `new Set(array)`: deduplicate keeping first occurrences. -/
def firstDedup (l : List ℕ) : List ℕ := l.foldl addUnique []

/-! ## MinHeap (`MinHeap.ts`)

The heap array is a `List (ℕ × XDist)` of `(vertex, distance)` pairs and
the `positions` map is an insertion-ordered association list. -/

/-- `positions.get(v)`. -/
def posGet (ps : List (ℕ × ℕ)) (v : ℕ) : Option ℕ :=
  (ps.find? (fun p => p.1 == v)).map (fun p => p.2)

/-- `positions.set(v, i)`: JS `Map.set` updates in place or appends. -/
def posSet (ps : List (ℕ × ℕ)) (v i : ℕ) : List (ℕ × ℕ) :=
  if ps.any (fun p => p.1 == v) then
    ps.map (fun p => if p.1 == v then (v, i) else p)
  else ps ++ [(v, i)]

/-- `positions.delete(v)`. -/
def posDelete (ps : List (ℕ × ℕ)) (v : ℕ) : List (ℕ × ℕ) :=
  ps.filter (fun p => !(p.1 == v))

structure MinHeap where
  heap : List (ℕ × XDist)
  positions : List (ℕ × ℕ)

def hEmpty : MinHeap := ⟨[], []⟩

/-- `this.heap[i]` (all source accesses are in range; out-of-range reads
get a junk default). -/
def hget (h : List (ℕ × XDist)) (i : ℕ) : ℕ × XDist := h.getD i (0, ⊤)

/-- `MinHeap.swap(i, j)`: exchange two heap cells and re-point both
vertices' `positions` entries, exactly as the source does (it reads the
vertices from the already swapped array). -/
def hswap (s : MinHeap) (i j : ℕ) : MinHeap :=
  let a := hget s.heap i
  let b := hget s.heap j
  let h' := (s.heap.set i b).set j a
  ⟨h', posSet (posSet s.positions (hget h' i).1 i) (hget h' j).1 j⟩

/-- `MinHeap.bubbleUp`, with structural fuel so that the definition
reduces by computation.  Each loop step moves from index `i` to
`(i-1)/2 < i`, so with `fuel ≥ idx` the fuel branch is unreachable and
`bubbleUpAux idx s idx` is exactly the source loop. -/
def bubbleUpAux : ℕ → MinHeap → ℕ → MinHeap
  | _, s, 0 => s
  | 0, s, _ + 1 => s
  | f + 1, s, idx + 1 =>
    if (hget s.heap (idx / 2)).2 ≤ (hget s.heap (idx + 1)).2 then s
    else bubbleUpAux f (hswap s (idx + 1) (idx / 2)) (idx / 2)

def bubbleUp (s : MinHeap) (idx : ℕ) : MinHeap := bubbleUpAux idx s idx

/-- `MinHeap.bubbleDown`, with the (invariant) heap length `n` frozen as
a separate argument and structural fuel.  Each loop step moves from
`idx` to a child `< n`, so `n - idx` shrinks; with `fuel ≥ n - idx`
the fuel branch is reached only when `idx ≥ n`, where the source loop
also stops (no child index is `< n`) — hence `bubbleDownAux n n s idx`
is exactly the source loop.  The source computes
`smallest := argmin of {idx, left, right}` (comparing `right` against the
provisional `smallest`) and swaps unless `smallest = idx`; the nested
ifs below perform the identical case analysis. -/
def bubbleDownAux (n : ℕ) : ℕ → MinHeap → ℕ → MinHeap
  | 0, s, _ => s
  | f + 1, s, idx =>
    if 2 * idx + 1 < n ∧ (hget s.heap (2 * idx + 1)).2 < (hget s.heap idx).2 then
      if 2 * idx + 2 < n ∧ (hget s.heap (2 * idx + 2)).2 < (hget s.heap (2 * idx + 1)).2 then
        bubbleDownAux n f (hswap s idx (2 * idx + 2)) (2 * idx + 2)
      else
        bubbleDownAux n f (hswap s idx (2 * idx + 1)) (2 * idx + 1)
    else
      if 2 * idx + 2 < n ∧ (hget s.heap (2 * idx + 2)).2 < (hget s.heap idx).2 then
        bubbleDownAux n f (hswap s idx (2 * idx + 2)) (2 * idx + 2)
      else s

def bubbleDown (s : MinHeap) (idx : ℕ) : MinHeap :=
  bubbleDownAux s.heap.length s.heap.length s idx

/-- `MinHeap.insert`. -/
def hInsert (s : MinHeap) (v : ℕ) (d : XDist) : MinHeap :=
  bubbleUp ⟨s.heap ++ [(v, d)], posSet s.positions v s.heap.length⟩ s.heap.length

/-- `MinHeap.extractMin`: returns the extracted vertex (if any) together
with the updated heap. -/
def hExtractMin (s : MinHeap) : Option ℕ × MinHeap :=
  match s.heap with
  | [] => (none, s)
  | p :: rest =>
    let mn := p.1
    let last := rest.getLastD p
    let h1 := (p :: rest).dropLast
    let ps1 := posDelete s.positions mn
    if h1.isEmpty then (some mn, ⟨h1, ps1⟩)
    else (some mn, bubbleDown ⟨h1.set 0 last, posSet ps1 last.1 0⟩ 0)

/-- `MinHeap.decreaseKey`: silently does nothing when the vertex is
absent. (When present, the source writes `heap[idx].distance` and
bubbles up; an out-of-range `idx` never occurs in synchronized states
and would crash JS, so it is mapped to a no-op.) -/
def hDecreaseKey (s : MinHeap) (v : ℕ) (nd : XDist) : MinHeap :=
  match posGet s.positions v with
  | none => s
  | some idx =>
    if idx < s.heap.length then
      bubbleUp ⟨s.heap.set idx ((hget s.heap idx).1, nd), s.positions⟩ idx
    else s

/-- `MinHeap.contains`. -/
def hContains (s : MinHeap) (v : ℕ) : Bool := (posGet s.positions v).isSome

/-! ## AdaptiveFrontier (`AdaptiveFrontier.ts`)

`elements : Map<number, number>` becomes an insertion-ordered
association list. -/

abbrev Frontier := List (ℕ × XDist)

def fLookup (F : Frontier) (v : ℕ) : Option XDist :=
  (F.find? (fun p => p.1 == v)).map (fun p => p.2)

/-- `elements.set(v, d)`. -/
def fSet (F : Frontier) (v : ℕ) (d : XDist) : Frontier :=
  if F.any (fun p => p.1 == v) then
    F.map (fun p => if p.1 == v then (v, d) else p)
  else F ++ [(v, d)]

/-- `AdaptiveFrontier.insert`: add if absent, lower if present. -/
def fInsert (F : Frontier) (v : ℕ) (d : XDist) : Frontier :=
  match fLookup F v with
  | none => fSet F v d
  | some d0 => if d0 > d then fSet F v d else F

/-- The `AdaptiveFrontier` constructor: `elements.set(v, dist[v])` for
each initial vertex. -/
def frontierOf (S : List ℕ) (dist : ℕ → XDist) : Frontier :=
  S.foldl (fun F v => fSet F v (dist v)) []

/-- The stable sort by stored distance performed inside `pull`
(`Array.from(elements).sort((a, b) => a[1] - b[1])`). -/
def sortByDist (F : Frontier) : Frontier :=
  List.insertionSort (fun a b => a.2 ≤ b.2) F

/-- `AdaptiveFrontier.pull(count)`: the returned batch and upper bound,
together with the updated container. -/
def pull (F : Frontier) (count : ℕ) : (List ℕ × XDist) × Frontier :=
  if F.isEmpty then (([], ⊤), F)
  else
    let sorted := sortByDist F
    let toReturn := min count sorted.length
    let vertices := (sorted.take toReturn).map Prod.fst
    let upperBound := if toReturn < sorted.length then (hget sorted toReturn).2 else ⊤
    ((vertices, upperBound), F.filter (fun p => !(vertices.contains p.1)))

/-! ## NewSSSP (`NewSSSP.ts`) -/

/-- One edge relaxation inside `findPivots`' Bellman-Ford round: the
accumulator is `(state, W, nextLayer)`. Ties (`newDist = dist[v]`)
propagate membership in `W`/`nextLayer` without touching `dist`/`pred`. -/
def fpEdge (B : XDist) (u : ℕ) : SState × List ℕ × List ℕ → ℕ × ℤ → SState × List ℕ × List ℕ
  | (st, W, next), (v, w) =>
    let newDist := st.dist u + (w : ℤ)
    if newDist ≤ st.dist v ∧ newDist < B then
      let st' :=
        if newDist < st.dist v then
          { st with dist := upd st.dist v newDist, pred := upd st.pred v (u : ℤ) }
        else st
      (st', addUnique W v, addUnique next v)
    else (st, W, next)

/-- One relaxation round of `findPivots`: every *complete* vertex of the
current layer relaxes its outgoing edges; returns `(state, W, nextLayer)`. -/
def fpRound (g : Graph) (B : XDist) (layer : List ℕ) (st : SState) (W : List ℕ) :
    SState × List ℕ × List ℕ :=
  layer.foldl
    (fun acc u => if acc.1.complete u then (g.adj u).foldl (fpEdge B u) acc else acc)
    (st, W, [])

/-- The `for i in 0..k-1` loop of `findPivots`; the `Bool` records whether
the early exit (`|W| > k * |S|`, checked after each round) fired. -/
def fpLoop (g : Graph) (k slen : ℕ) (B : XDist) :
    ℕ → SState → List ℕ → List ℕ → SState × List ℕ × Bool
  | 0, st, W, _ => (st, W, false)
  | i + 1, st, W, layer =>
    let r := fpRound g B layer st W
    if k * slen < r.2.1.length then (r.1, r.2.1, true)
    else fpLoop g k slen B i r.1 r.2.1 r.2.2

/-- The predecessor walk of `findLargeTreeRoots`: follow `pred` until the
sentinel `-1`, a revisit, or a member of `roots` is reached; `fuel`
bounds the number of steps (`none` = fuel exhausted). -/
def walkRoot (st : SState) (roots : List ℕ) : ℕ → ℕ → List ℕ → Option ℕ
  | 0, _, _ => none
  | f + 1, root, visited =>
    if st.pred root ≠ -1 ∧ ¬ visited.contains root then
      let root' := (st.pred root).toNat
      if roots.contains root' then some root'
      else walkRoot st roots f root' (visited ++ [root])
    else some root

/-- `NewSSSP.findLargeTreeRoots`: count, for every `v ∈ W`, the root of its
predecessor chain, then keep the roots of trees with `≥ k` members,
falling back to `roots.slice(0, 1)`. -/
def findLargeTreeRoots (st : SState) (S W : List ℕ) (k fuel : ℕ) : Option (List ℕ) :=
  let roots := firstDedup (S.filter (fun v => st.complete v))
  let ts? := W.foldl
    (fun acc v =>
      match acc with
      | none => none
      | some ts =>
        match walkRoot st roots fuel v [] with
        | none => none
        | some root =>
          if roots.contains root then some (posSet ts root ((posGet ts root).getD 0 + 1))
          else some ts)
    (some ([] : List (ℕ × ℕ)))
  match ts? with
  | none => none
  | some ts =>
    let pivots := roots.filter (fun r => decide (k ≤ (posGet ts r).getD 0))
    some (if pivots.isEmpty then roots.take 1 else pivots)

/-- `NewSSSP.findPivots`: `k` bounded relaxation rounds from `S` with the
early exit returning `(S, W)`, else pivot selection via
`findLargeTreeRoots`; returns `(state, pivots, W)`. -/
def findPivots (g : Graph) (k walkFuel : ℕ) (B : XDist) (S : List ℕ) (st : SState) :
    Option (SState × List ℕ × List ℕ) :=
  match fpLoop g k S.length B k st (firstDedup S) (firstDedup S) with
  | (st', W', true) => some (st', S, W')
  | (st', W', false) =>
    (findLargeTreeRoots st' S W' k walkFuel).map (fun piv => (st', piv, W'))

/-- One edge relaxation of `baseCase`'s bounded mini-Dijkstra: the
accumulator is `(state, heap, inHeap)`. -/
def baseEdge (B : XDist) (u : ℕ) : SState × MinHeap × List ℕ → ℕ × ℤ → SState × MinHeap × List ℕ
  | (st, hp, inH), (v, w) =>
    let newDist := st.dist u + (w : ℤ)
    if newDist < st.dist v ∧ newDist < B then
      let st' := { st with dist := upd st.dist v newDist, pred := upd st.pred v (u : ℤ) }
      if inH.contains v then (st', hDecreaseKey hp v newDist, inH)
      else (st', hInsert hp v newDist, addUnique inH v)
    else (st, hp, inH)

/-- The `while (!heap.isEmpty())` loop of `baseCase`; each iteration
extracts the minimum, marks it complete, appends it to `U` and relaxes
its outgoing edges. `none` = fuel exhausted before the heap drained. -/
def baseLoop (g : Graph) (B : XDist) :
    ℕ → SState → MinHeap → List ℕ → List ℕ → Option (SState × List ℕ)
  | 0, st, hp, _, U => if hp.heap.isEmpty then some (st, U) else none
  | f + 1, st, hp, inH, U =>
    match hExtractMin hp with
    | (none, _) => some (st, U)
    | (some u, hp1) =>
      let inH1 := inH.erase u
      let st1 := { st with complete := upd st.complete u true }
      let r := (g.adj u).foldl (baseEdge B u) (st1, hp1, inH1)
      baseLoop g B f r.1 r.2.1 r.2.2 (U ++ [u])

/-- `NewSSSP.baseCase`: bounded mini-Dijkstra seeded from `S[0]` only;
empty `S` returns `(B, [])` immediately; `B_prime = B`. -/
def baseCase (g : Graph) (bcFuel : ℕ) (B : XDist) (S : List ℕ) (st : SState) :
    Option (SState × XDist × List ℕ) :=
  match S with
  | [] => some (st, B, [])
  | s :: _ =>
    let hp0 := hInsert hEmpty s (st.dist s)
    (baseLoop g B bcFuel st hp0 [s] []).map (fun p => (p.1, B, p.2))

/-- One edge relaxation of `relaxEdges`: update `dist`/`pred` on strict
improvement; insert the neighbor into the frontier when it is not
complete and (`Bi = ∞` or `newDist ≥ Bi`) — the source's "Modified"
condition. -/
def reEdge (Bi B : XDist) (u : ℕ) : SState × Frontier → ℕ × ℤ → SState × Frontier
  | (st, F), (v, w) =>
    let newDist := st.dist u + (w : ℤ)
    if newDist ≤ st.dist v ∧ newDist < B then
      let st' :=
        if newDist < st.dist v then
          { st with dist := upd st.dist v newDist, pred := upd st.pred v (u : ℤ) }
        else st
      if ¬ st'.complete v ∧ (Bi = ⊤ ∨ Bi ≤ newDist) then (st', fInsert F v newDist)
      else (st', F)
    else (st, F)

/-- `NewSSSP.relaxEdges`: mark each source vertex complete, then relax its
outgoing edges. -/
def relaxEdges (g : Graph) (vertices : List ℕ) (Bi B : XDist) (st : SState) (F : Frontier) :
    SState × Frontier :=
  vertices.foldl
    (fun acc u =>
      (g.adj u).foldl (reEdge Bi B u)
        ({ acc.1 with complete := upd acc.1.complete u true }, acc.2))
    (st, F)

/-- The pull loop of `BMSSP` at level `lvl ≥ 1`. `recur` is the recursive
`BMSSP` call one level down; the accumulator carries
`(state, frontier, U, B_prime)`. One fuel unit per iteration; when
`recur` is the (always-productive) base case every iteration grows `U`,
so `k * 2 ^ (lvl * t) + 1` fuel can never run out. -/
def bmsspLoop (g : Graph) (k t lvl : ℕ)
    (recur : XDist → List ℕ → SState → Option (SState × XDist × List ℕ))
    (B : XDist) :
    ℕ → SState → Frontier → List ℕ → XDist → Option (SState × XDist × List ℕ)
  | 0, _, _, _, _ => none
  | f + 1, st, F, U, Bp =>
    if U.length < k * 2 ^ (lvl * t) ∧ ¬ F.isEmpty then
      let pr := pull F (2 ^ ((lvl - 1) * t))
      if pr.1.1.isEmpty then some (st, Bp, U)
      else
        match recur pr.1.2 pr.1.1 st with
        | none => none
        | some (st2, subB, subU) =>
          let U' := U ++ subU
          let Bp' := minE Bp subB
          let r := relaxEdges g subU pr.1.2 B st2 pr.2
          if k * 2 ^ (lvl * t) ≤ U'.length then some (r.1, Bp', U')
          else bmsspLoop g k t lvl recur B f r.1 r.2 U' Bp'
    else some (st, Bp, U)

/-- `NewSSSP.BMSSP`: level 0 is `baseCase`; level `l+1` runs `findPivots`,
seeds an `AdaptiveFrontier` with the pivots, iterates the pull loop and
finally merges the `W`-vertices with `dist < B_prime` into `U`. -/
def BMSSP (g : Graph) (k t bcFuel walkFuel : ℕ) :
    ℕ → XDist → List ℕ → SState → Option (SState × XDist × List ℕ)
  | 0, B, S, st => baseCase g bcFuel B S st
  | l + 1, B, S, st =>
    match findPivots g k walkFuel B S st with
    | none => none
    | some (st1, pivots, W) =>
      match bmsspLoop g k t (l + 1) (BMSSP g k t bcFuel walkFuel l) B
          (k * 2 ^ ((l + 1) * t) + 1) st1 (frontierOf pivots st1.dist) [] B with
      | none => none
      | some (st2, Bp, U) =>
        let U' := W.foldl (fun acc v => if st2.dist v < Bp ∧ ¬ acc.contains v then acc ++ [v] else acc) U
        some (st2, Bp, U')

/-- `⌊n^(1/3)⌋`, computed exactly. -/
def icbrt (n : ℕ) : ℕ :=
  ((List.range (n + 2)).filter (fun m => decide (m * m * m ≤ n))).length - 1

/-- `k = Math.max(2, Math.floor(Math.pow(n, 1/3)))`. The float `pow`
agrees with the exact integer cube root for every `n` reachable in the
claims (it can differ only where `pow` lands within one ulp of an exact
cube, e.g. `n = 125`; no claim instantiates such an `n`). -/
def kOf (n : ℕ) : ℕ := max 2 (icbrt n)

/-- `t = Math.max(2, Math.floor(Math.pow(n, 2/3)))`, with
`⌊n^(2/3)⌋ = ⌊(n²)^(1/3)⌋` computed exactly (same caveat as `kOf`). -/
def tOf (n : ℕ) : ℕ := max 2 (icbrt (n * n))

/-- `levels = Math.ceil(Math.log(n) / t)`.  For every `n ≥ 2` one has
`ln n ≤ 2 ≤ t` or `ln n < ⌊n^(2/3)⌋`, hence `0 < log(n)/t ≤ 1` and the
ceiling is `1`; at `n = 1`, `log 1 = 0` gives `0`.  (The float quotient
is far from the boundary for every `n ≥ 2`, so exact `1` is faithful.) -/
def levelsOf (n : ℕ) : ℕ := if n ≤ 1 then 0 else 1

/-- The state set up by `NewSSSP`'s constructor and the first lines of
`solve`: all distances `∞` except `dist[source] = 0`, all predecessors
`-1`, only `source` complete. -/
def initState (source : ℕ) : SState :=
  { dist := upd (fun _ => ⊤) source 0
    pred := fun _ => -1
    complete := upd (fun _ => false) source true }

/-- `NewSSSP.solve` (without the visualization bookkeeping): the top-level
`BMSSP(levels, ∞, [source])` call on the freshly initialised state.
`fuel` feeds the base-case and predecessor-walk loops. -/
def solve (g : Graph) (source fuel : ℕ) : Option (SState × XDist × List ℕ) :=
  BMSSP g (kOf g.n) (tOf g.n) fuel fuel (levelsOf g.n) ⊤ [source] (initState source)

/-- The internal distance table after `solve` (the program's returned
`distances` Map restricts it to the keys `0 .. n-1`; claims query it
only at in-range indices). -/
def solveDist (g : Graph) (source fuel : ℕ) : Option (ℕ → XDist) :=
  (solve g source fuel).map (fun r => r.1.dist)

/-! ## Concrete graphs used by the claims -/

/-- Adjacency lists of `createExampleGraph` (`Graph.ts`), in `addEdge`
insertion order. -/
def exampleAdj : ℕ → List (ℕ × ℤ)
  | 0 => [(1, 4), (2, 2)]
  | 1 => [(3, 5)]
  | 2 => [(1, 1), (4, 10)]
  | 3 => [(5, 3), (7, 6)]
  | 4 => [(3, 2), (5, 1)]
  | 5 => [(6, 2)]
  | 6 => [(8, 3)]
  | 7 => [(9, 1)]
  | 8 => [(9, 2)]
  | _ => []

/-- The 10-vertex example graph of the repository. -/
def exampleGraph : Graph := ⟨10, exampleAdj⟩

/-- A two-vertex graph with a negative edge weight (`0 →(-5)→ 1`):
malformed input per the spec. -/
def negAdj : ℕ → List (ℕ × ℤ)
  | 0 => [(1, -5)]
  | _ => []

def negGraph : Graph := ⟨2, negAdj⟩

/-- A two-vertex graph whose single edge points at the nonexistent
vertex `7`: malformed input per the spec. -/
def oorAdj : ℕ → List (ℕ × ℤ)
  | 0 => [(7, 3)]
  | _ => []

def oorGraph : Graph := ⟨2, oorAdj⟩

/-- A two-vertex graph with the single edge `0 →(4)→ 1`. -/
def oneEdgeAdj : ℕ → List (ℕ × ℤ)
  | 0 => [(1, 4)]
  | _ => []

def oneEdgeGraph : Graph := ⟨2, oneEdgeAdj⟩

/-- The one-vertex edgeless graph. -/
def trivGraph : Graph := ⟨1, fun _ => []⟩

/-- A solver state in which no vertex is complete. -/
def blankState : SState :=
  { dist := fun _ => ⊤, pred := fun _ => -1, complete := fun _ => false }

/-! ## Heap invariants and operation sequences -/

/-- The binary min-heap ordering of the `heap` array: every non-root cell
is `≥` its parent. -/
def HeapProp (h : List (ℕ × XDist)) : Prop :=
  ∀ i, 0 < i → i < h.length → (hget h ((i - 1) / 2)).2 ≤ (hget h i).2

/-- Soundness of the `positions` map: every entry points at an in-range
cell holding that vertex. -/
def PosInv (s : MinHeap) : Prop :=
  ∀ v i, posGet s.positions v = some i → i < s.heap.length ∧ (hget s.heap i).1 = v

def HeapInv (s : MinHeap) : Prop := HeapProp s.heap ∧ PosInv s

/-- A public `MinHeap` operation: `insert` or `decreaseKey`. -/
inductive HOp where
  | ins (v : ℕ) (d : XDist)
  | dec (v : ℕ) (d : XDist)

def applyOp (s : MinHeap) : HOp → MinHeap
  | .ins v d => hInsert s v d
  | .dec v d => hDecreaseKey s v d

/-- The precondition under which an operation is used as intended:
`insert` is unrestricted; `decreaseKey v d` must not raise any stored
distance of `v`. -/
def goodOp (s : MinHeap) : HOp → Prop
  | .ins _ _ => True
  | .dec v d => ∀ p ∈ s.heap, p.1 = v → d ≤ p.2

/-- A sequence of operations each of which is good in the state where it
executes. -/
def GoodFrom (s : MinHeap) : List HOp → Prop
  | [] => True
  | op :: rest => goodOp s op ∧ GoodFrom (applyOp s op) rest

def runOps (ops : List HOp) : MinHeap := ops.foldl applyOp hEmpty

/-- The stream of root distances obtained by repeatedly calling
`extractMin` (each extracted vertex's stored distance is the root
cell's distance). -/
def drainKeys : ℕ → MinHeap → List XDist
  | 0, _ => []
  | f + 1, s =>
    match s.heap with
    | [] => []
    | p :: _ => p.2 :: drainKeys f (hExtractMin s).2


/-- The comparison relation used by `pull`'s sort. -/
instance : IsTotal (ℕ × XDist) (fun a b => a.2 ≤ b.2) :=
  ⟨fun a b => le_total a.2 b.2⟩

instance : IsTrans (ℕ × XDist) (fun a b => a.2 ≤ b.2) :=
  ⟨fun _ _ _ h1 h2 => le_trans h1 h2⟩


/-- Heap order except possibly at the edge into `idx` (the sift-up
invariant): every other non-root cell is `≥` its parent, and the
children of `idx` are `≥` the parent of `idx`. -/
def AlmostUp (h : List (ℕ × XDist)) (idx : ℕ) : Prop :=
  (∀ j, 0 < j → j < h.length → j ≠ idx → (hget h ((j - 1) / 2)).2 ≤ (hget h j).2)
  ∧ (0 < idx → ∀ j, 0 < j → j < h.length → (j - 1) / 2 = idx →
      (hget h ((idx - 1) / 2)).2 ≤ (hget h j).2)

/-- Heap order except possibly at the edges out of `idx` (the sift-down
invariant): every cell whose parent is not `idx` is `≥` its parent, and
the children of `idx` are `≥` the parent of `idx`. -/
def AlmostDown (h : List (ℕ × XDist)) (idx : ℕ) : Prop :=
  (∀ j, 0 < j → j < h.length → (j - 1) / 2 ≠ idx → (hget h ((j - 1) / 2)).2 ≤ (hget h j).2)
  ∧ (0 < idx → ∀ j, 0 < j → j < h.length → (j - 1) / 2 = idx →
      (hget h ((idx - 1) / 2)).2 ≤ (hget h j).2)

/-! ## Array-based solver state (malformed inputs)

`SState` models the `dist`/`pred`/`complete` arrays as total functions,
which is exact whenever every index that is actually read is in range —
true for every well-formed graph, whose edge targets are `< n`.  A
malformed edge whose target `v ≥ n` makes the source read
`this.dist[v] = undefined`, and in JavaScript every `<`/`<=` comparison
involving `undefined` (or the `NaN` produced by `undefined + w`) is
`false`, so every relax guard silently skips such an edge and `v` is
never written.  To settle the malformed-input claim faithfully, the
variant below keeps the arrays as genuine length-`n` lists: a `dist`
read yields `Option XDist` (`none` = `undefined`) and each relax guard
requires both compared cells to be defined, exactly as the JS
comparisons do.  `complete` reads use `getD false` (`undefined` is
falsy, so this is exact at every index); `pred` reads occur only at
members of `W`/`S` and at stored `pred` values, all of which are
guard-checked in-range writes, so `getD` with the `-1` sentinel is
exact on every reachable input. -/

/-- `dist`, `pred` and `complete` as genuine length-`n` arrays. -/
structure SStateA where
  dist : List XDist
  pred : List ℤ
  complete : List Bool

/-- `findPivots`' edge relaxation over array state: the guard
`newDist <= this.dist[v] && newDist < B` is `false` in JS whenever
`this.dist[u]` or `this.dist[v]` is `undefined`; the `match` mirrors
that exactly. -/
def fpEdgeA (B : XDist) (u : ℕ) :
    SStateA × List ℕ × List ℕ → ℕ × ℤ → SStateA × List ℕ × List ℕ
  | (st, W, next), (v, w) =>
    match st.dist.get? u, st.dist.get? v with
    | some du, some dv =>
      let newDist := du + (w : ℤ)
      if newDist ≤ dv ∧ newDist < B then
        let st' :=
          if newDist < dv then
            { st with dist := st.dist.set v newDist, pred := st.pred.set v (u : ℤ) }
          else st
        (st', addUnique W v, addUnique next v)
      else (st, W, next)
    | _, _ => (st, W, next)

/-- `findPivots`' relaxation round over array state
(`!this.complete[u]` holds for `undefined` just as for `false`). -/
def fpRoundA (g : Graph) (B : XDist) (layer : List ℕ) (st : SStateA) (W : List ℕ) :
    SStateA × List ℕ × List ℕ :=
  layer.foldl
    (fun acc u => if acc.1.complete.getD u false then (g.adj u).foldl (fpEdgeA B u) acc else acc)
    (st, W, [])

/-- The `for i in 0..k-1` loop of `findPivots` over array state. -/
def fpLoopA (g : Graph) (k slen : ℕ) (B : XDist) :
    ℕ → SStateA → List ℕ → List ℕ → SStateA × List ℕ × Bool
  | 0, st, W, _ => (st, W, false)
  | i + 1, st, W, layer =>
    let r := fpRoundA g B layer st W
    if k * slen < r.2.1.length then (r.1, r.2.1, true)
    else fpLoopA g k slen B i r.1 r.2.1 r.2.2

/-- The predecessor walk of `findLargeTreeRoots` over array state. -/
def walkRootA (st : SStateA) (roots : List ℕ) : ℕ → ℕ → List ℕ → Option ℕ
  | 0, _, _ => none
  | f + 1, root, visited =>
    if st.pred.getD root (-1) ≠ -1 ∧ ¬ visited.contains root then
      let root' := (st.pred.getD root (-1)).toNat
      if roots.contains root' then some root'
      else walkRootA st roots f root' (visited ++ [root])
    else some root

/-- `NewSSSP.findLargeTreeRoots` over array state. -/
def findLargeTreeRootsA (st : SStateA) (S W : List ℕ) (k fuel : ℕ) : Option (List ℕ) :=
  let roots := firstDedup (S.filter (fun v => st.complete.getD v false))
  let ts? := W.foldl
    (fun acc v =>
      match acc with
      | none => none
      | some ts =>
        match walkRootA st roots fuel v [] with
        | none => none
        | some root =>
          if roots.contains root then some (posSet ts root ((posGet ts root).getD 0 + 1))
          else some ts)
    (some ([] : List (ℕ × ℕ)))
  match ts? with
  | none => none
  | some ts =>
    let pivots := roots.filter (fun r => decide (k ≤ (posGet ts r).getD 0))
    some (if pivots.isEmpty then roots.take 1 else pivots)

/-- `NewSSSP.findPivots` over array state. -/
def findPivotsA (g : Graph) (k walkFuel : ℕ) (B : XDist) (S : List ℕ) (st : SStateA) :
    Option (SStateA × List ℕ × List ℕ) :=
  match fpLoopA g k S.length B k st (firstDedup S) (firstDedup S) with
  | (st', W', true) => some (st', S, W')
  | (st', W', false) =>
    (findLargeTreeRootsA st' S W' k walkFuel).map (fun piv => (st', piv, W'))

/-- `baseCase`'s edge relaxation over array state (same `undefined`
semantics as `fpEdgeA`, with the strict guard). -/
def baseEdgeA (B : XDist) (u : ℕ) :
    SStateA × MinHeap × List ℕ → ℕ × ℤ → SStateA × MinHeap × List ℕ
  | (st, hp, inH), (v, w) =>
    match st.dist.get? u, st.dist.get? v with
    | some du, some dv =>
      let newDist := du + (w : ℤ)
      if newDist < dv ∧ newDist < B then
        let st' := { st with dist := st.dist.set v newDist, pred := st.pred.set v (u : ℤ) }
        if inH.contains v then (st', hDecreaseKey hp v newDist, inH)
        else (st', hInsert hp v newDist, addUnique inH v)
      else (st, hp, inH)
    | _, _ => (st, hp, inH)

/-- `baseCase`'s Dijkstra loop over array state (extracted vertices are
in-range heap members, so the `complete` write stays inside the array). -/
def baseLoopA (g : Graph) (B : XDist) :
    ℕ → SStateA → MinHeap → List ℕ → List ℕ → Option (SStateA × List ℕ)
  | 0, st, hp, _, U => if hp.heap.isEmpty then some (st, U) else none
  | f + 1, st, hp, inH, U =>
    match hExtractMin hp with
    | (none, _) => some (st, U)
    | (some u, hp1) =>
      let inH1 := inH.erase u
      let st1 := { st with complete := st.complete.set u true }
      let r := (g.adj u).foldl (baseEdgeA B u) (st1, hp1, inH1)
      baseLoopA g B f r.1 r.2.1 r.2.2 (U ++ [u])

/-- `NewSSSP.baseCase` over array state (the seed read `this.dist[S[0]]`
is in range in every run: `S` members come from guarded relaxations or
the caller's source). -/
def baseCaseA (g : Graph) (bcFuel : ℕ) (B : XDist) (S : List ℕ) (st : SStateA) :
    Option (SStateA × XDist × List ℕ) :=
  match S with
  | [] => some (st, B, [])
  | s :: _ =>
    let hp0 := hInsert hEmpty s (st.dist.getD s ⊤)
    (baseLoopA g B bcFuel st hp0 [s] []).map (fun p => (p.1, B, p.2))

/-- `relaxEdges`' edge relaxation over array state. -/
def reEdgeA (Bi B : XDist) (u : ℕ) : SStateA × Frontier → ℕ × ℤ → SStateA × Frontier
  | (st, F), (v, w) =>
    match st.dist.get? u, st.dist.get? v with
    | some du, some dv =>
      let newDist := du + (w : ℤ)
      if newDist ≤ dv ∧ newDist < B then
        let st' :=
          if newDist < dv then
            { st with dist := st.dist.set v newDist, pred := st.pred.set v (u : ℤ) }
          else st
        if ¬ st'.complete.getD v false ∧ (Bi = ⊤ ∨ Bi ≤ newDist) then (st', fInsert F v newDist)
        else (st', F)
      else (st, F)
    | _, _ => (st, F)

/-- `NewSSSP.relaxEdges` over array state (relaxation sources are
members of `U`, which are in-range heap extractions). -/
def relaxEdgesA (g : Graph) (vertices : List ℕ) (Bi B : XDist) (st : SStateA) (F : Frontier) :
    SStateA × Frontier :=
  vertices.foldl
    (fun acc u =>
      (g.adj u).foldl (reEdgeA Bi B u)
        ({ acc.1 with complete := acc.1.complete.set u true }, acc.2))
    (st, F)

/-- The `AdaptiveFrontier` constructor over array state (the initial
vertices are the pivots, all in range). -/
def frontierOfA (S : List ℕ) (dist : List XDist) : Frontier :=
  S.foldl (fun F v => fSet F v (dist.getD v ⊤)) []

/-- The pull loop of `BMSSP` over array state. -/
def bmsspLoopA (g : Graph) (k t lvl : ℕ)
    (recur : XDist → List ℕ → SStateA → Option (SStateA × XDist × List ℕ))
    (B : XDist) :
    ℕ → SStateA → Frontier → List ℕ → XDist → Option (SStateA × XDist × List ℕ)
  | 0, _, _, _, _ => none
  | f + 1, st, F, U, Bp =>
    if U.length < k * 2 ^ (lvl * t) ∧ ¬ F.isEmpty then
      let pr := pull F (2 ^ ((lvl - 1) * t))
      if pr.1.1.isEmpty then some (st, Bp, U)
      else
        match recur pr.1.2 pr.1.1 st with
        | none => none
        | some (st2, subB, subU) =>
          let U' := U ++ subU
          let Bp' := minE Bp subB
          let r := relaxEdgesA g subU pr.1.2 B st2 pr.2
          if k * 2 ^ (lvl * t) ≤ U'.length then some (r.1, Bp', U')
          else bmsspLoopA g k t lvl recur B f r.1 r.2 U' Bp'
    else some (st, Bp, U)

/-- `NewSSSP.BMSSP` over array state.  In the final `W`-merge the read
`this.dist[v]` via `getD ⊤` is exact at every index: both
`undefined < B_prime` (JS) and `⊤ < Bp` (model) are `false`. -/
def BMSSPA (g : Graph) (k t bcFuel walkFuel : ℕ) :
    ℕ → XDist → List ℕ → SStateA → Option (SStateA × XDist × List ℕ)
  | 0, B, S, st => baseCaseA g bcFuel B S st
  | l + 1, B, S, st =>
    match findPivotsA g k walkFuel B S st with
    | none => none
    | some (st1, pivots, W) =>
      match bmsspLoopA g k t (l + 1) (BMSSPA g k t bcFuel walkFuel l) B
          (k * 2 ^ ((l + 1) * t) + 1) st1 (frontierOfA pivots st1.dist) [] B with
      | none => none
      | some (st2, Bp, U) =>
        let U' := W.foldl
          (fun acc v => if st2.dist.getD v ⊤ < Bp ∧ ¬ acc.contains v then acc ++ [v] else acc) U
        some (st2, Bp, U')

/-- The constructor arrays plus `solve`'s preamble writes
(`dist[source] = 0`, `complete[source] = true`), as length-`n` lists. -/
def initStateA (n source : ℕ) : SStateA :=
  { dist := (List.replicate n (⊤ : XDist)).set source 0
    pred := List.replicate n (-1 : ℤ)
    complete := (List.replicate n false).set source true }

/-- `NewSSSP.solve` over array state. -/
def solveA (g : Graph) (source fuel : ℕ) : Option (SStateA × XDist × List ℕ) :=
  BMSSPA g (kOf g.n) (tOf g.n) fuel fuel (levelsOf g.n) ⊤ [source] (initStateA g.n source)

/-- The `distances` Map returned by `solve`:
`distMap.set(i, this.dist[i])` for `i = 0 .. n-1`, so an out-of-range
vertex id is never a key of the program's output. -/
def solveMapA (g : Graph) (source fuel : ℕ) : Option (List (ℕ × XDist)) :=
  (solveA g source fuel).map
    (fun r => (List.range g.n).map (fun i => (i, r.1.dist.getD i ⊤)))

/-! ## Claims -/

/-- C2: on the concrete example graph with edges
(0→1,4),(0→2,2),(1→3,5),(2→1,1),(2→4,10),(3→5,3),(4→3,2),(4→5,1),
(5→6,2),(3→7,6),(6→8,3),(7→9,1),(8→9,2), `NewSSSP.solve` with source 0
returns distances d0=0, d1=3, d2=2, d3=8, d4=12, d5=11 and d9=15. -/
theorem c2_example_distances :
    (solveDist exampleGraph 0 100).map
        (fun d => [d 0, d 1, d 2, d 3, d 4, d 5, d 9]) =
      some [0, 3, 2, 8, 12, 11, 15] := by decide

/-- C8 counterexample: the claim says an input containing a negative edge
weight is rejected before running.  Instead, `solve` on the graph with
single edge `0 →(-5)→ 1` runs to completion and returns the distance
`-5` for vertex 1 — the negative weight is used as-is, with no
rejection, error report or clamping (the implementation contains no
validation code at all). -/
theorem c8_counterexample :
    (solveDist negGraph 0 100).map (fun d => d 1) = some (some (-5)) := by decide

/-- C8 amended: the solver performs no input validation and no
invalid-input condition exists — `solve` always runs.  A negative edge
weight is not rejected: it flows through relaxation and the returned
`distances` map of the graph `0 →(-5)→ 1` assigns vertex 1 the distance
`-5`.  An edge whose target vertex id is out of range is not rejected
either, but is silently ignored: the JS relax guard compares against
`this.dist[v] = undefined` and is `false`, so the nonexistent vertex 7
is never relaxed, the `dist` array is untouched beyond the source, and
the returned `distances` map contains exactly the keys `0 .. n-1`. -/
theorem c8_no_validation :
    solveMapA negGraph 0 100 = some [(0, ((0 : ℤ) : XDist)), (1, ((-5 : ℤ) : XDist))]
    ∧ solveMapA oorGraph 0 100 = some [(0, ((0 : ℤ) : XDist)), (1, (⊤ : XDist))]
    ∧ (solveA oorGraph 0 100).map (fun r => r.1.dist) =
        some [((0 : ℤ) : XDist), (⊤ : XDist)] := by decide

/-- C7 counterexample: the claim says `decreaseKey` on an absent vertex
fails loudly.  Instead it is a silent no-op: on a heap containing only
vertex 0, `decreaseKey(5, 0)` returns the heap completely unchanged. -/
theorem c7_counterexample :
    hDecreaseKey (hInsert hEmpty 0 1) 5 0 = hInsert hEmpty 0 1 := rfl

/-- C7 amended: `decreaseKey` on an absent vertex silently returns the
heap unchanged, and `decreaseKey` with a `newDistance` larger than the
current one silently overwrites the stored distance (only restoring
order upwards); neither condition is surfaced as an error. -/
theorem c7_decreaseKey_silent :
    (∀ (s : MinHeap) (v : ℕ) (d : XDist),
        posGet s.positions v = none → hDecreaseKey s v d = s)
    ∧ (hDecreaseKey (hInsert hEmpty 0 1) 0 5).heap = [(0, 5)] := by
  constructor
  · intro s v d h
    unfold hDecreaseKey
    rw [h]
  · decide

/-- C7 witness for `c7_decreaseKey_silent`: its hypothesis discharged on
the concrete heap `⟨[(1, 2)], [(1, 0)]⟩` and absent vertex 9. -/
theorem c7_decreaseKey_silent_witness :
    hDecreaseKey ⟨[(1, 2)], [(1, 0)]⟩ 9 0 = ⟨[(1, 2)], [(1, 0)]⟩ :=
  c7_decreaseKey_silent.1 ⟨[(1, 2)], [(1, 0)]⟩ 9 0 (by decide)

/-- C5 counterexample: the claim says a neighbor is re-inserted into the
frontier exactly when it is not complete and its new distance is at or
above the pull boundary `Bi` and below `B`.  With `Bi = ∞` (a fully
drained pull) the new distance `0 + 4` is *not* `≥ Bi`, yet
`relaxEdges` does insert vertex 1 into the frontier (the source's
"Modified" `Bi === Infinity ||` disjunct). -/
theorem c5_counterexample :
    (relaxEdges oneEdgeGraph [0] ⊤ ⊤ (initState 0) []).2.map Prod.fst = [1]
    ∧ ¬ ((⊤ : XDist) ≤ (initState 0).dist 0 + ((4 : ℤ) : XDist)) := by decide

/-- C9 counterexample: the claim says that whenever the early exit is not
triggered the returned pivot set is nonempty.  But `findPivots` with
`S = [0]` on a state where vertex 0 is not complete triggers no early
exit (`|W| = 1 ≤ k·|S| = 2`) and returns an *empty* pivot list:
`roots = S.filter(complete)` is empty and `roots.slice(0, 1)` of an
empty set is empty. -/
theorem c9_counterexample :
    (findPivots trivGraph 2 5 ⊤ [0] blankState).map (fun r => r.2.1) = some [] := by
  decide

/-- C6 counterexample: the claim quantifies over every sequence of
`insert` and `decreaseKey` operations.  After `insert(0,1)`,
`insert(1,2)`, `decreaseKey(0,5)` — a `decreaseKey` whose new distance
is *larger* — `extractMin` returns vertex 0 with stored distance 5,
although vertex 1 is still stored with distance 2 < 5. -/
theorem c6_counterexample :
    (hExtractMin (runOps [HOp.ins 0 1, HOp.ins 1 2, HOp.dec 0 5])).1 = some 0
    ∧ (0, (5 : XDist)) ∈ (runOps [HOp.ins 0 1, HOp.ins 1 2, HOp.dec 0 5]).heap
    ∧ (1, (2 : XDist)) ∈ (runOps [HOp.ins 0 1, HOp.ins 1 2, HOp.dec 0 5]).heap
    ∧ ¬ ((5 : XDist) ≤ (2 : XDist)) := by decide

theorem sortByDist_perm (F : Frontier) : (sortByDist F).Perm F :=
  List.perm_insertionSort _ F

theorem sortByDist_sorted (F : Frontier) :
    List.Sorted (fun a b : ℕ × XDist => a.2 ≤ b.2) (sortByDist F) :=
  List.sorted_insertionSort _ F

theorem sortByDist_length (F : Frontier) : (sortByDist F).length = F.length :=
  (sortByDist_perm F).length_eq

/-- Keys of the sorted batch prefix and of the rest are disjoint when the
container's keys are duplicate-free. -/
theorem sort_take_drop_key_disjoint (F : Frontier) (tr : ℕ)
    (hnd : (F.map Prod.fst).Nodup) :
    ∀ q ∈ (sortByDist F).drop tr, q.1 ∉ ((sortByDist F).take tr).map Prod.fst := by
  intro q hq hmem
  have hsnd : ((sortByDist F).map Prod.fst).Nodup :=
    (((sortByDist_perm F).map Prod.fst).nodup_iff).2 hnd
  have hsplit : ((sortByDist F).map Prod.fst) =
      ((sortByDist F).take tr).map Prod.fst ++ ((sortByDist F).drop tr).map Prod.fst := by
    rw [← List.map_append, List.take_append_drop]
  rw [hsplit, List.nodup_append] at hsnd
  exact hsnd.2.2 hmem (List.mem_map_of_mem Prod.fst hq)

/-- Membership in the container left behind by `pull` coincides with
membership in the dropped part of the sorted list. -/
theorem pull_rest_mem (F : Frontier) (m : ℕ) (hnd : (F.map Prod.fst).Nodup)
    (hne : F.isEmpty = false) :
    ∀ q, q ∈ (pull F m).2 ↔ q ∈ (sortByDist F).drop (min m (sortByDist F).length) := by
  intro q
  have hmemf : q ∈ (pull F m).2 ↔ q ∈ F ∧
      q.1 ∉ ((sortByDist F).take (min m (sortByDist F).length)).map Prod.fst := by
    simp [pull, hne, List.mem_filter]
  rw [hmemf]
  constructor
  · intro hq
    obtain ⟨hqF, hqk⟩ := hq
    have hqs : q ∈ (sortByDist F) := (sortByDist_perm F).mem_iff.2 hqF
    have hqsplit : q ∈ (sortByDist F).take (min m (sortByDist F).length) ++
        (sortByDist F).drop (min m (sortByDist F).length) := by
      rw [List.take_append_drop]; exact hqs
    rcases List.mem_append.1 hqsplit with htk | hdr
    · exact absurd (List.mem_map_of_mem Prod.fst htk) hqk
    · exact hdr
  · intro hq
    have hqs : q ∈ sortByDist F := List.drop_subset _ _ hq
    exact ⟨(sortByDist_perm F).mem_iff.1 hqs,
      sort_take_drop_key_disjoint F (min m (sortByDist F).length) hnd q hq⟩

/-- C3: `pull(m)` removes and returns up to `m` vertices whose stored
distances are smallest among the current contents; the returned
`upperBound` is `≤` every remaining stored distance, equals the
smallest remaining stored distance when the container is not drained,
and is `∞` when it was drained; `pull` on an empty container returns
`([], ∞)` regardless of `m`.  (Stated for containers with
duplicate-free keys — the `Map` invariant; the returned batch is the
prefix of the stably sorted contents.) -/
theorem c3_pull_contract (F : Frontier) (m : ℕ) (hnd : (F.map Prod.fst).Nodup) :
    (pull F m).1.1 = ((sortByDist F).take (min m F.length)).map Prod.fst
    ∧ (pull F m).1.1.length = min m F.length
    ∧ F.Perm ((sortByDist F).take (min m F.length) ++ (pull F m).2)
    ∧ (∀ p ∈ (sortByDist F).take (min m F.length), ∀ q ∈ (pull F m).2, p.2 ≤ q.2)
    ∧ (∀ q ∈ (pull F m).2, (pull F m).1.2 ≤ q.2)
    ∧ ((pull F m).2 ≠ [] → ∃ q ∈ (pull F m).2, (pull F m).1.2 = q.2)
    ∧ ((pull F m).2 = [] → (pull F m).1.2 = ⊤)
    ∧ pull ([] : Frontier) m = (([], ⊤), []) := by
  rcases eq_or_ne F [] with hF | hF
  · subst hF
    simp [pull, sortByDist, List.insertionSort]
  have hne : F.isEmpty = false := by simpa [List.isEmpty_iff] using hF
  have hlen := sortByDist_length F
  have hFnodup : F.Nodup := hnd.of_map
  have hsNodup : (sortByDist F).Nodup := (sortByDist_perm F).nodup_iff.2 hFnodup
  have hsort := sortByDist_sorted F
  have hmin : min m (sortByDist F).length = min m F.length := by rw [hlen]
  have hrmem := pull_rest_mem F m hnd hne
  have hrnodup : (pull F m).2.Nodup := by
    have : (pull F m).2 = F.filter
        (fun p => !(((pull F m).1.1).contains p.1)) := by
      simp [pull, hne]
    rw [this]; exact hFnodup.filter _
  have hdnodup : ((sortByDist F).drop (min m F.length)).Nodup :=
    (List.drop_sublist _ _).nodup hsNodup
  have hrperm : (pull F m).2.Perm ((sortByDist F).drop (min m F.length)) := by
    rw [List.perm_ext_iff_of_nodup hrnodup hdnodup]
    intro q; rw [hrmem q, hmin]
  have hsplitPW := hsort
  rw [← List.take_append_drop (min m F.length) (sortByDist F)] at hsplitPW
  have hcross := (List.pairwise_append.1 hsplitPW).2.2
  have hub : (pull F m).1.2 =
      if min m F.length < (sortByDist F).length then
        (hget (sortByDist F) (min m F.length)).2
      else ⊤ := by
    simp [pull, hne, hmin]
  have hheadmem : ∀ htr : min m F.length < (sortByDist F).length,
      (sortByDist F).get ⟨min m F.length, htr⟩ ∈ (pull F m).2 := by
    intro htr
    rw [hrmem, hmin, List.drop_eq_getElem_cons htr]
    exact List.mem_cons_self _ _
  refine ⟨?_, ?_, ?_, ?_, ?_, ?_, ?_, rfl⟩
  · simp [pull, hne, hmin]
  · simp only [pull, hne, Bool.false_eq_true, if_false]
    simp [hmin, List.length_take]
    omega
  · have h1 : F.Perm (sortByDist F) := (sortByDist_perm F).symm
    rw [← List.take_append_drop (min m F.length) (sortByDist F)] at h1
    exact h1.trans (List.Perm.append_left _ hrperm.symm)
  · intro p hp q hq
    have hq' : q ∈ (sortByDist F).drop (min m F.length) := by
      rw [← hmin]; exact (hrmem q).1 hq
    exact hcross p hp q hq'
  · intro q hq
    have hq' : q ∈ (sortByDist F).drop (min m F.length) := by
      rw [← hmin]; exact (hrmem q).1 hq
    have htr : min m F.length < (sortByDist F).length := by
      by_contra hge
      rw [List.drop_eq_nil_of_le (le_of_not_lt hge)] at hq'
      exact absurd hq' (List.not_mem_nil q)
    have hdsorted : List.Sorted (fun a b : ℕ × XDist => a.2 ≤ b.2)
        ((sortByDist F).drop (min m F.length)) :=
      List.Pairwise.sublist (List.drop_sublist _ _) hsort
    rw [List.drop_eq_getElem_cons htr] at hq' hdsorted
    rw [hub, if_pos htr, hget, List.getD_eq_getElem _ _ htr]
    rcases List.mem_cons.1 hq' with heq | htl
    · rw [heq]
    · exact List.rel_of_sorted_cons hdsorted q htl
  · intro hne'
    have htr : min m F.length < (sortByDist F).length := by
      by_contra hge
      apply hne'
      refine List.eq_nil_iff_forall_not_mem.2 (fun q hq => ?_)
      have hq' : q ∈ (sortByDist F).drop (min m F.length) := by
        rw [← hmin]; exact (hrmem q).1 hq
      rw [List.drop_eq_nil_of_le (le_of_not_lt hge)] at hq'
      exact absurd hq' (List.not_mem_nil q)
    refine ⟨(sortByDist F).get ⟨min m F.length, htr⟩, hheadmem htr, ?_⟩
    rw [hub, if_pos htr, hget, List.getD_eq_getElem _ _ htr]
    simp [List.get_eq_getElem]
  · intro hnil
    rw [hub, if_neg]
    intro htr
    have := hheadmem htr
    rw [hnil] at this
    exact absurd this (List.not_mem_nil _)

/-- Witness for `c3_pull_contract`: its duplicate-free-keys hypothesis
discharged on the concrete container `[(1, 5), (2, 3)]` with `m = 1`. -/
theorem c3_pull_contract_witness :
    (pull [(1, (5 : XDist)), (2, 3)] 1).1.1 =
      ((sortByDist [(1, (5 : XDist)), (2, 3)]).take
        (min 1 ([(1, (5 : XDist)), (2, 3)] : Frontier).length)).map Prod.fst :=
  (c3_pull_contract [(1, 5), (2, 3)] 1 (by decide)).1

/-- Folding a step that relates output to input under a reflexive
transitive relation relates the whole fold to its start. -/
theorem foldl_rel {γ α : Type} (P : γ → γ → Prop) (refl : ∀ c, P c c)
    (trans : ∀ a b c, P a b → P b c → P a c)
    (g : γ → α → γ) (h : ∀ c a, P (g c a) c) :
    ∀ (l : List α) (c : γ), P (l.foldl g c) c := by
  intro l
  induction l with
  | nil => intro c; exact refl c
  | cons a l ih => intro c; exact trans _ _ _ (ih (g c a)) (h c a)

theorem fpEdge_dist_le (B : XDist) (u : ℕ) (acc : SState × List ℕ × List ℕ)
    (e : ℕ × ℤ) : ∀ v, (fpEdge B u acc e).1.dist v ≤ acc.1.dist v := by
  rcases acc with ⟨st, W, next⟩
  rcases e with ⟨v', w⟩
  intro v
  simp only [fpEdge]
  split
  · split
    · rename_i hlt
      simp only [upd]
      by_cases hv : v = v'
      · subst hv; simp [le_of_lt hlt]
      · simp [hv]
    · exact le_refl _
  · exact le_refl _

theorem fpStep_dist_le (g : Graph) (B : XDist) (c : SState × List ℕ × List ℕ) (u : ℕ) :
    ∀ v, (if c.1.complete u then (g.adj u).foldl (fpEdge B u) c else c).1.dist v ≤
      c.1.dist v := by
  split
  · exact foldl_rel (fun a b : SState × List ℕ × List ℕ => ∀ v, a.1.dist v ≤ b.1.dist v)
      (fun c v => le_refl _) (fun a b c h1 h2 v => le_trans (h1 v) (h2 v))
      (fpEdge B u) (fun c e => fpEdge_dist_le B u c e) (g.adj u) c
  · exact fun _ => le_refl _

theorem fpRound_dist_le (g : Graph) (B : XDist) (layer : List ℕ) (st : SState)
    (W : List ℕ) : ∀ v, (fpRound g B layer st W).1.dist v ≤ st.dist v :=
  foldl_rel (fun a b : SState × List ℕ × List ℕ => ∀ v, a.1.dist v ≤ b.1.dist v)
    (fun c v => le_refl _) (fun a b c h1 h2 v => le_trans (h1 v) (h2 v))
    (fun acc u => if acc.1.complete u then (g.adj u).foldl (fpEdge B u) acc else acc)
    (fun c u => fpStep_dist_le g B c u)
    layer (st, W, [])

theorem fpLoop_dist_le (g : Graph) (k slen : ℕ) (B : XDist) :
    ∀ (i : ℕ) (st : SState) (W layer : List ℕ) (v : ℕ),
      (fpLoop g k slen B i st W layer).1.dist v ≤ st.dist v := by
  intro i
  induction i with
  | zero => intro st W layer v; exact le_refl _
  | succ i ih =>
    intro st W layer v
    simp only [fpLoop]
    split
    · exact fpRound_dist_le g B layer st W v
    · exact le_trans (ih _ _ _ v) (fpRound_dist_le g B layer st W v)

theorem findPivots_dist_le (g : Graph) (k wf : ℕ) (B : XDist) (S : List ℕ)
    (st st' : SState) (piv W : List ℕ)
    (h : findPivots g k wf B S st = some (st', piv, W)) :
    ∀ v, st'.dist v ≤ st.dist v := by
  intro v
  unfold findPivots at h
  split at h
  · rename_i st1 W1 heq
    have hle := fpLoop_dist_le g k S.length B k st (firstDedup S) (firstDedup S) v
    rw [heq] at hle
    cases h
    exact hle
  · rename_i st1 W1 heq
    rw [Option.map_eq_some'] at h
    obtain ⟨piv', _, hfe⟩ := h
    have hle := fpLoop_dist_le g k S.length B k st (firstDedup S) (firstDedup S) v
    rw [heq] at hle
    cases hfe
    exact hle

theorem baseEdge_dist_le (B : XDist) (u : ℕ) (c : SState × MinHeap × List ℕ)
    (e : ℕ × ℤ) : ∀ v, (baseEdge B u c e).1.dist v ≤ c.1.dist v := by
  rcases c with ⟨st, hp, inH⟩
  rcases e with ⟨v', w⟩
  intro v
  simp only [baseEdge]
  split
  · rename_i hlt
    split
    · simp only [upd]
      by_cases hv : v = v'
      · subst hv; simp [le_of_lt hlt.1]
      · simp [hv]
    · simp only [upd]
      by_cases hv : v = v'
      · subst hv; simp [le_of_lt hlt.1]
      · simp [hv]
  · exact le_refl _

theorem baseLoop_dist_le (g : Graph) (B : XDist) :
    ∀ (f : ℕ) (st : SState) (hp : MinHeap) (inH U : List ℕ) (st' : SState) (U' : List ℕ),
      baseLoop g B f st hp inH U = some (st', U') → ∀ v, st'.dist v ≤ st.dist v := by
  intro f
  induction f with
  | zero =>
    intro st hp inH U st' U' h v
    simp only [baseLoop] at h
    split at h
    · cases h; exact le_refl _
    · cases h
  | succ f ih =>
    intro st hp inH U st' U' h v
    simp only [baseLoop] at h
    split at h
    · cases h; exact le_refl _
    · rename_i u hp1 heq
      have hfold := foldl_rel
        (fun a b : SState × MinHeap × List ℕ => ∀ v, a.1.dist v ≤ b.1.dist v)
        (fun c v => le_refl _) (fun a b c h1 h2 v => le_trans (h1 v) (h2 v))
        (baseEdge B u) (fun c e => baseEdge_dist_le B u c e) (g.adj u)
        ({ st with complete := upd st.complete u true }, hp1, inH.erase u)
      exact le_trans (ih _ _ _ _ _ _ h v) (hfold v)

theorem baseCase_dist_le (g : Graph) (f : ℕ) (B : XDist) (S : List ℕ)
    (st st' : SState) (B' : XDist) (U : List ℕ)
    (h : baseCase g f B S st = some (st', B', U)) : ∀ v, st'.dist v ≤ st.dist v := by
  intro v
  unfold baseCase at h
  match S, h with
  | [], h => cases h; exact le_refl _
  | s :: rest, h =>
    rw [Option.map_eq_some'] at h
    obtain ⟨⟨st1, U1⟩, hbl, hfe⟩ := h
    cases hfe
    exact baseLoop_dist_le g B f st _ [s] [] st1 U1 hbl v

theorem upd_le (f : ℕ → XDist) (a : ℕ) (d : XDist) (hd : d ≤ f a) :
    ∀ v, upd f a d v ≤ f v := by
  intro v
  unfold upd
  split
  · rename_i hv; subst hv; exact hd
  · exact le_refl _

theorem reEdge_dist_le (Bi B : XDist) (u : ℕ) (c : SState × Frontier)
    (e : ℕ × ℤ) : ∀ v, (reEdge Bi B u c e).1.dist v ≤ c.1.dist v := by
  rcases c with ⟨st, F⟩
  rcases e with ⟨v', w⟩
  intro v
  simp only [reEdge]
  split
  · split
    · rename_i hlt
      split <;> exact upd_le st.dist v' _ (le_of_lt hlt) v
    · split <;> exact le_refl _
  · exact le_refl _

theorem relaxEdges_dist_le (g : Graph) (vs : List ℕ) (Bi B : XDist)
    (st : SState) (F : Frontier) :
    ∀ v, (relaxEdges g vs Bi B st F).1.dist v ≤ st.dist v :=
  foldl_rel (fun a b : SState × Frontier => ∀ v, a.1.dist v ≤ b.1.dist v)
    (fun c v => le_refl _) (fun a b c h1 h2 v => le_trans (h1 v) (h2 v))
    (fun acc u => (g.adj u).foldl (reEdge Bi B u)
      ({ acc.1 with complete := upd acc.1.complete u true }, acc.2))
    (fun c u => fun v =>
      le_trans
        (foldl_rel (fun a b : SState × Frontier => ∀ v, a.1.dist v ≤ b.1.dist v)
          (fun c v => le_refl _) (fun a b c h1 h2 v => le_trans (h1 v) (h2 v))
          (reEdge Bi B u) (fun c e => reEdge_dist_le Bi B u c e) (g.adj u)
          ({ c.1 with complete := upd c.1.complete u true }, c.2) v)
        (le_refl _))
    vs (st, F)

theorem bmsspLoop_dist_le (g : Graph) (k t lvl : ℕ)
    (recur : XDist → List ℕ → SState → Option (SState × XDist × List ℕ)) (B : XDist)
    (hrec : ∀ Bi Si st st' B' U, recur Bi Si st = some (st', B', U) →
      ∀ v, st'.dist v ≤ st.dist v) :
    ∀ (f : ℕ) (st : SState) (F : Frontier) (U : List ℕ) (Bp : XDist)
      (st' : SState) (B' : XDist) (U' : List ℕ),
      bmsspLoop g k t lvl recur B f st F U Bp = some (st', B', U') →
      ∀ v, st'.dist v ≤ st.dist v := by
  intro f
  induction f with
  | zero => intro st F U Bp st' B' U' h; cases h
  | succ f ih =>
    intro st F U Bp st' B' U' h v
    simp only [bmsspLoop] at h
    split at h
    · split at h
      · cases h; exact le_refl _
      · split at h
        · cases h
        · rename_i st2 subB subU heq
          split at h
          · cases h
            exact le_trans (relaxEdges_dist_le g subU _ B st2 _ v)
              (hrec _ _ _ _ _ _ heq v)
          · exact le_trans (ih _ _ _ _ _ _ _ h v)
              (le_trans (relaxEdges_dist_le g subU _ B st2 _ v)
                (hrec _ _ _ _ _ _ heq v))
    · cases h; exact le_refl _

theorem BMSSP_dist_le (g : Graph) (k t bf wf : ℕ) :
    ∀ (l : ℕ) (B : XDist) (S : List ℕ) (st st' : SState) (B' : XDist) (U : List ℕ),
      BMSSP g k t bf wf l B S st = some (st', B', U) → ∀ v, st'.dist v ≤ st.dist v := by
  intro l
  induction l with
  | zero =>
    intro B S st st' B' U h v
    exact baseCase_dist_le g bf B S st st' B' U h v
  | succ l ih =>
    intro B S st st' B' U h v
    simp only [BMSSP] at h
    split at h
    · cases h
    · rename_i st1 piv W heq
      split at h
      · cases h
      · rename_i st2 Bp U2 heq2
        cases h
        exact le_trans
          (bmsspLoop_dist_le g k t (l + 1) (BMSSP g k t bf wf l) B
            (fun Bi Si st3 st3' B3 U3 hh => ih Bi Si st3 st3' B3 U3 hh)
            _ _ _ _ _ _ _ _ heq2 v)
          (findPivots_dist_le g k wf B S st st1 piv W heq v)

/-- C4: throughout a solve `dist[v]` is non-increasing at every
observation point: each of `findPivots`, `baseCase` and `relaxEdges`
maps the state to one with pointwise `≤` distances (each individual
write is guarded by a strict comparison, so a changed cell is always
strictly smaller), and hence so does every (terminating) `BMSSP` call
of a solve. -/
theorem c4_dist_monotone :
    (∀ (g : Graph) (k wf : ℕ) (B : XDist) (S : List ℕ) (st st' : SState)
        (piv W : List ℕ), findPivots g k wf B S st = some (st', piv, W) →
        ∀ v, st'.dist v ≤ st.dist v)
    ∧ (∀ (g : Graph) (f : ℕ) (B : XDist) (S : List ℕ) (st st' : SState)
        (B' : XDist) (U : List ℕ), baseCase g f B S st = some (st', B', U) →
        ∀ v, st'.dist v ≤ st.dist v)
    ∧ (∀ (g : Graph) (vs : List ℕ) (Bi B : XDist) (st : SState) (F : Frontier)
        (v : ℕ), (relaxEdges g vs Bi B st F).1.dist v ≤ st.dist v)
    ∧ (∀ (g : Graph) (k t bf wf l : ℕ) (B : XDist) (S : List ℕ) (st st' : SState)
        (B' : XDist) (U : List ℕ), BMSSP g k t bf wf l B S st = some (st', B', U) →
        ∀ v, st'.dist v ≤ st.dist v) :=
  ⟨fun g k wf B S st st' piv W h => findPivots_dist_le g k wf B S st st' piv W h,
   fun g f B S st st' B' U h => baseCase_dist_le g f B S st st' B' U h,
   fun g vs Bi B st F v => relaxEdges_dist_le g vs Bi B st F v,
   fun g k t bf wf l B S st st' B' U h => BMSSP_dist_le g k t bf wf l B S st st' B' U h⟩

/-- Witness for `c4_dist_monotone`: every hypothesis discharged by `rfl`
at concrete inputs (a `findPivots` call that performs no update, an
empty-seed `baseCase`, a no-vertex `relaxEdges`, a level-0 `BMSSP`). -/
theorem c4_dist_monotone_witness :
    blankState.dist 3 ≤ blankState.dist 3
    ∧ (initState 0).dist 3 ≤ (initState 0).dist 3
    ∧ (relaxEdges trivGraph [] ⊤ ⊤ (initState 0) []).1.dist 3 ≤ (initState 0).dist 3
    ∧ (initState 0).dist 4 ≤ (initState 0).dist 4 :=
  ⟨c4_dist_monotone.1 trivGraph 2 5 ⊤ [0] blankState blankState [] [0] rfl 3,
   c4_dist_monotone.2.1 trivGraph 0 ⊤ [] (initState 0) (initState 0) ⊤ [] rfl 3,
   c4_dist_monotone.2.2.1 trivGraph [] ⊤ ⊤ (initState 0) [] 3,
   c4_dist_monotone.2.2.2 trivGraph 2 2 5 5 0 ⊤ [] (initState 0) (initState 0) ⊤ [] rfl 4⟩

/-- C5 amended: during the BMSSP pull loop, `relaxEdges` on a returned
vertex `u` (here: with a single outgoing edge `u →(w)→ v`) marks `u`
complete and no other vertex, updates `dist`/`pred` exactly on strict
improvement below `B`, and inserts `v` into the frontier exactly when
`newDist ≤ dist[v]`, `newDist < B`, `v` is not complete (after `u` was
marked), and either `Bi = ∞` or `newDist ≥ Bi` — i.e. the source also
re-inserts when the batch's pull boundary is infinite. -/
theorem c5_relax_reinsert (g : Graph) (u v : ℕ) (w : ℤ) (Bi B : XDist)
    (st : SState) (F : Frontier) (hadj : g.adj u = [(v, w)]) :
    (relaxEdges g [u] Bi B st F).1.complete u = true
    ∧ (∀ x, x ≠ u → (relaxEdges g [u] Bi B st F).1.complete x = st.complete x)
    ∧ ((st.dist u + (w : ℤ) < st.dist v ∧ st.dist u + (w : ℤ) < B) →
        (relaxEdges g [u] Bi B st F).1.dist = upd st.dist v (st.dist u + (w : ℤ))
        ∧ (relaxEdges g [u] Bi B st F).1.pred = upd st.pred v (u : ℤ))
    ∧ (¬ (st.dist u + (w : ℤ) < st.dist v ∧ st.dist u + (w : ℤ) < B) →
        (relaxEdges g [u] Bi B st F).1.dist = st.dist
        ∧ (relaxEdges g [u] Bi B st F).1.pred = st.pred)
    ∧ ((relaxEdges g [u] Bi B st F).2 =
        if st.dist u + (w : ℤ) ≤ st.dist v ∧ st.dist u + (w : ℤ) < B
            ∧ ¬ (upd st.complete u true) v = true
            ∧ (Bi = ⊤ ∨ Bi ≤ st.dist u + (w : ℤ)) then
          fInsert F v (st.dist u + (w : ℤ))
        else F) := by
  have hun : relaxEdges g [u] Bi B st F =
      reEdge Bi B u ({ st with complete := upd st.complete u true }, F) (v, w) := by
    simp [relaxEdges, hadj]
  rw [hun]
  simp only [reEdge]
  refine ⟨?_, ?_, ?_, ?_, ?_⟩
  · split
    · split <;> split <;> simp [upd]
    · simp [upd]
  · intro x hx
    split
    · split <;> split <;> simp [upd, hx]
    · simp [upd, hx]
  · intro hstrict
    rw [if_pos ⟨le_of_lt hstrict.1, hstrict.2⟩, if_pos hstrict.1]
    split <;> exact ⟨rfl, rfl⟩
  · intro hns
    by_cases houter : st.dist u + (w : ℤ) ≤ st.dist v ∧ st.dist u + (w : ℤ) < B
    · rw [if_pos houter, if_neg (fun hlt => hns ⟨hlt, houter.2⟩)]
      split <;> exact ⟨rfl, rfl⟩
    · rw [if_neg houter]
      exact ⟨rfl, rfl⟩
  · by_cases hstrict : st.dist u + (w : ℤ) < st.dist v
    · rw [if_pos hstrict]
      dsimp only
      split_ifs <;> first | rfl | tauto
    · rw [if_neg hstrict]
      dsimp only
      split_ifs <;> first | rfl | tauto

/-- Witness for `c5_relax_reinsert`: the adjacency hypothesis discharged
on the concrete one-edge graph, showing the `Bi = ∞` re-insertion. -/
theorem c5_relax_reinsert_witness :
    (relaxEdges oneEdgeGraph [0] ⊤ ⊤ (initState 0) []).2 =
      (if (initState 0).dist 0 + ((4 : ℤ) : XDist) ≤ (initState 0).dist 1
          ∧ (initState 0).dist 0 + ((4 : ℤ) : XDist) < ⊤
          ∧ ¬ (upd (initState 0).complete 0 true) 1 = true
          ∧ ((⊤ : XDist) = ⊤ ∨ (⊤ : XDist) ≤ (initState 0).dist 0 + ((4 : ℤ) : XDist)) then
        fInsert [] 1 ((initState 0).dist 0 + ((4 : ℤ) : XDist))
      else []) :=
  (c5_relax_reinsert oneEdgeGraph 0 1 4 ⊤ ⊤ (initState 0) [] rfl).2.2.2.2

theorem addUnique_mem (l : List ℕ) (v x : ℕ) :
    x ∈ addUnique l v ↔ x ∈ l ∨ x = v := by
  unfold addUnique
  split
  · rename_i hc
    rw [List.contains_eq_any_beq] at hc
    simp only [List.any_eq_true, beq_iff_eq] at hc
    obtain ⟨y, hy, hyv⟩ := hc
    subst hyv
    constructor
    · exact Or.inl
    · rintro (h | h)
      · exact h
      · subst h; exact hy
  · simp [List.mem_append]

theorem foldl_addUnique_mem :
    ∀ (l acc : List ℕ) (x : ℕ), x ∈ l.foldl addUnique acc ↔ x ∈ acc ∨ x ∈ l := by
  intro l
  induction l with
  | nil => intro acc x; simp
  | cons a l ih =>
    intro acc x
    simp only [List.foldl_cons]
    rw [ih, addUnique_mem]
    simp [List.mem_cons]
    tauto

theorem firstDedup_mem (l : List ℕ) (x : ℕ) : x ∈ firstDedup l ↔ x ∈ l := by
  unfold firstDedup
  rw [foldl_addUnique_mem]
  simp

theorem addUnique_length (l : List ℕ) (v : ℕ) :
    (addUnique l v).length ≤ l.length + 1 := by
  unfold addUnique
  split
  · omega
  · simp

theorem foldl_addUnique_length :
    ∀ (l acc : List ℕ), (l.foldl addUnique acc).length ≤ acc.length + l.length := by
  intro l
  induction l with
  | nil => intro acc; simp
  | cons a l ih =>
    intro acc
    simp only [List.foldl_cons, List.length_cons]
    have := ih (addUnique acc a)
    have := addUnique_length acc a
    omega

theorem firstDedup_length (l : List ℕ) : (firstDedup l).length ≤ l.length := by
  have := foldl_addUnique_length l []
  simpa [firstDedup] using this

theorem findLargeTreeRoots_bounds (st : SState) (S W : List ℕ) (k wf : ℕ)
    (piv : List ℕ) (h : findLargeTreeRoots st S W k wf = some piv) :
    (∀ p ∈ piv, p ∈ S) ∧ piv.length ≤ S.length
    ∧ ((∃ v ∈ S, st.complete v = true) → 1 ≤ piv.length) := by
  simp only [findLargeTreeRoots] at h
  split at h
  · cases h
  · rename_i ts hts
    rw [Option.some.injEq] at h
    have hrootsMem : ∀ p ∈ firstDedup (S.filter (fun v => st.complete v)), p ∈ S := by
      intro p hp
      rw [firstDedup_mem] at hp
      exact (List.mem_filter.1 hp).1
    have hrootsLen : (firstDedup (S.filter (fun v => st.complete v))).length ≤ S.length :=
      le_trans (firstDedup_length _) (List.length_filter_le _ _)
    have hrootsNe : (∃ v ∈ S, st.complete v = true) →
        1 ≤ (firstDedup (S.filter (fun v => st.complete v))).length := by
      rintro ⟨v, hvS, hvc⟩
      have : v ∈ firstDedup (S.filter (fun v => st.complete v)) := by
        rw [firstDedup_mem, List.mem_filter]
        exact ⟨hvS, hvc⟩
      have := List.length_pos_of_mem this
      omega
    rw [← h]
    split
    · rename_i hempty
      refine ⟨fun p hp => hrootsMem p (List.take_subset _ _ hp), ?_, ?_⟩
      · have := List.length_take_le 1 (firstDedup (S.filter (fun v => st.complete v)))
        have h2 : (List.take 1 (firstDedup (S.filter (fun v => st.complete v)))).length ≤
            (firstDedup (S.filter (fun v => st.complete v))).length :=
          List.length_take_le' _ _
        omega
      · intro hex
        have h1 := hrootsNe hex
        rw [List.length_take]
        omega
    · rename_i hempty
      refine ⟨fun p hp => hrootsMem p (List.mem_of_mem_filter hp), ?_, ?_⟩
      · exact le_trans (List.length_filter_le _ _) hrootsLen
      · intro _
        have hne : (List.filter (fun r => decide (k ≤ (posGet ts r).getD 0))
            (firstDedup (S.filter (fun v => st.complete v)))) ≠ [] := by
          intro hc
          exact hempty (by simp [hc])
        have := List.length_pos_of_ne_nil hne
        omega

theorem fpEdge_complete (B : XDist) (u : ℕ) (acc : SState × List ℕ × List ℕ)
    (e : ℕ × ℤ) : (fpEdge B u acc e).1.complete = acc.1.complete := by
  rcases acc with ⟨st, W, next⟩
  rcases e with ⟨v, w⟩
  simp only [fpEdge]
  split
  · split <;> rfl
  · rfl

theorem fpStep_complete (g : Graph) (B : XDist) (c : SState × List ℕ × List ℕ) (u : ℕ) :
    (if c.1.complete u then (g.adj u).foldl (fpEdge B u) c else c).1.complete =
      c.1.complete := by
  split
  · exact foldl_rel (fun a b : SState × List ℕ × List ℕ => a.1.complete = b.1.complete)
      (fun c => rfl) (fun a b c h1 h2 => h1.trans h2) (fpEdge B u)
      (fun c e => fpEdge_complete B u c e) (g.adj u) c
  · rfl

theorem fpRound_complete (g : Graph) (B : XDist) (layer : List ℕ) (st : SState)
    (W : List ℕ) : (fpRound g B layer st W).1.complete = st.complete :=
  foldl_rel (fun a b : SState × List ℕ × List ℕ => a.1.complete = b.1.complete)
    (fun c => rfl) (fun a b c h1 h2 => h1.trans h2)
    (fun acc u => if acc.1.complete u then (g.adj u).foldl (fpEdge B u) acc else acc)
    (fun c u => fpStep_complete g B c u) layer (st, W, [])

theorem fpLoop_complete (g : Graph) (k slen : ℕ) (B : XDist) :
    ∀ (i : ℕ) (st : SState) (W layer : List ℕ),
      (fpLoop g k slen B i st W layer).1.complete = st.complete := by
  intro i
  induction i with
  | zero => intro st W layer; rfl
  | succ i ih =>
    intro st W layer
    simp only [fpLoop]
    split
    · exact fpRound_complete g B layer st W
    · exact (ih _ _ _).trans (fpRound_complete g B layer st W)

/-- C9 amended: `findPivots(B, S)` returns pivots that form a subset of
`S` with `|pivots| ≤ |S|`; when the early-exit threshold fires the call
returns `(S, W)` unchanged; and when it does not fire and `S` contains
at least one *complete* vertex, `|pivots| ≥ 1` (the fallback keeps one
root). With no complete vertex in `S` the pivot set can be empty — see
the counterexample. -/
theorem c9_findPivots_bounds (g : Graph) (k wf : ℕ) (B : XDist) (S : List ℕ)
    (st : SState) :
    (∀ st1 W1, fpLoop g k S.length B k st (firstDedup S) (firstDedup S) = (st1, W1, true) →
        findPivots g k wf B S st = some (st1, S, W1))
    ∧ (∀ st' piv W, findPivots g k wf B S st = some (st', piv, W) →
        piv.length ≤ S.length ∧ ∀ p ∈ piv, p ∈ S)
    ∧ ((∃ v ∈ S, st.complete v = true) →
        ∀ st1 W1, fpLoop g k S.length B k st (firstDedup S) (firstDedup S) = (st1, W1, false) →
        ∀ st' piv W, findPivots g k wf B S st = some (st', piv, W) → 1 ≤ piv.length) := by
  refine ⟨?_, ?_, ?_⟩
  · intro st1 W1 h
    unfold findPivots
    rw [h]
  · intro st' piv W h
    unfold findPivots at h
    split at h
    · cases h
      exact ⟨le_refl _, fun p hp => hp⟩
    · rename_i st1 W1 heq
      rw [Option.map_eq_some'] at h
      obtain ⟨piv', hflr, hfe⟩ := h
      cases hfe
      have hb := findLargeTreeRoots_bounds _ _ _ k wf _ hflr
      exact ⟨hb.2.1, hb.1⟩
  · intro hex st1 W1 heq st' piv W h
    unfold findPivots at h
    split at h
    · rename_i st1' W1' heq'
      rw [heq] at heq'
      simp at heq'
    · rename_i st1' W1' heq'
      rw [Option.map_eq_some'] at h
      obtain ⟨piv', hflr, hfe⟩ := h
      cases hfe
      have hcomp := fpLoop_complete g k S.length B k st (firstDedup S) (firstDedup S)
      rw [heq'] at hcomp
      refine (findLargeTreeRoots_bounds _ _ _ k wf _ hflr).2.2 ?_
      obtain ⟨v, hvS, hvc⟩ := hex
      refine ⟨v, hvS, ?_⟩
      rw [hcomp]
      exact hvc

/-- Witness for `c9_findPivots_bounds`: hypotheses discharged at the
one-vertex graph with complete source, where no early exit fires and
the fallback pivot `[0]` is returned. -/
theorem c9_findPivots_bounds_witness :
    (([0] : List ℕ).length ≤ ([0] : List ℕ).length ∧ ∀ p ∈ ([0] : List ℕ), p ∈ ([0] : List ℕ))
    ∧ 1 ≤ ([0] : List ℕ).length :=
  ⟨(c9_findPivots_bounds trivGraph 2 5 ⊤ [0] (initState 0)).2.1 (initState 0) [0] [0] rfl,
   (c9_findPivots_bounds trivGraph 2 5 ⊤ [0] (initState 0)).2.2
     ⟨0, by decide, by decide⟩ (initState 0) [0] rfl (initState 0) [0] [0] rfl⟩

/-! ### Heap cell bookkeeping lemmas -/

theorem hswap_length (s : MinHeap) (i j : ℕ) :
    (hswap s i j).heap.length = s.heap.length := by
  simp [hswap]

theorem hget_mem (h : List (ℕ × XDist)) (i : ℕ) (hi : i < h.length) :
    hget h i ∈ h := by
  rw [hget, List.getD_eq_getElem _ _ hi]
  exact List.getElem_mem hi

theorem hswap_mem (s : MinHeap) (i j : ℕ) (hi : i < s.heap.length)
    (hj : j < s.heap.length) : ∀ p ∈ (hswap s i j).heap, p ∈ s.heap := by
  intro p hp
  simp only [hswap] at hp
  rcases List.mem_or_eq_of_mem_set hp with hp1 | hp1
  · rcases List.mem_or_eq_of_mem_set hp1 with hp2 | hp2
    · exact hp2
    · rw [hp2]; exact hget_mem _ _ hj
  · rw [hp1]; exact hget_mem _ _ hi

theorem bubbleUpAux_mem :
    ∀ (fuel : ℕ) (s : MinHeap) (idx : ℕ), ∀ p ∈ (bubbleUpAux fuel s idx).heap, p ∈ s.heap := by
  intro fuel
  induction fuel with
  | zero => intro s idx p hp; cases idx <;> exact hp
  | succ fuel ih =>
    intro s idx p hp
    match idx, hp with
    | 0, hp => exact hp
    | idx + 1, hp =>
      rw [bubbleUpAux] at hp
      split at hp
      · exact hp
      · rename_i hlt
        have hrange : idx + 1 < s.heap.length := by
          by_contra hge
          apply hlt
          have : hget s.heap (idx + 1) = (0, ⊤) := by
            rw [hget, List.getD_eq_default]
            omega
          rw [this]
          exact le_top
        have hpar : idx / 2 < s.heap.length := by omega
        exact hswap_mem s (idx + 1) (idx / 2) hrange hpar p (ih _ _ p hp)

theorem bubbleUp_mem (s : MinHeap) (idx : ℕ) :
    ∀ p ∈ (bubbleUp s idx).heap, p ∈ s.heap :=
  bubbleUpAux_mem idx s idx

theorem bubbleDownAux_mem :
    ∀ (fuel : ℕ) (n : ℕ) (s : MinHeap) (idx : ℕ), n = s.heap.length →
      ∀ p ∈ (bubbleDownAux n fuel s idx).heap, p ∈ s.heap := by
  intro fuel
  induction fuel with
  | zero => intro n s idx _ p hp; exact hp
  | succ fuel ih =>
    intro n s idx hn p hp
    rw [bubbleDownAux] at hp
    split at hp
    · rename_i h1
      have hidx : idx < s.heap.length := by omega
      split at hp
      · rename_i h2
        have hc : 2 * idx + 2 < s.heap.length := by omega
        exact hswap_mem s idx _ hidx hc p
          (ih n _ _ (by rw [hn, hswap_length]) p hp)
      · have hc : 2 * idx + 1 < s.heap.length := by omega
        exact hswap_mem s idx _ hidx hc p
          (ih n _ _ (by rw [hn, hswap_length]) p hp)
    · split at hp
      · rename_i h2
        have hidx : idx < s.heap.length := by omega
        have hc : 2 * idx + 2 < s.heap.length := by omega
        exact hswap_mem s idx _ hidx hc p
          (ih n _ _ (by rw [hn, hswap_length]) p hp)
      · exact hp

theorem bubbleDown_mem (s : MinHeap) (idx : ℕ) :
    ∀ p ∈ (bubbleDown s idx).heap, p ∈ s.heap :=
  bubbleDownAux_mem s.heap.length s.heap.length s idx rfl

theorem hInsert_mem (s : MinHeap) (v : ℕ) (d : XDist) :
    ∀ p ∈ (hInsert s v d).heap, p ∈ s.heap ∨ p = (v, d) := by
  intro p hp
  have := bubbleUp_mem ⟨s.heap ++ [(v, d)], posSet s.positions v s.heap.length⟩
    s.heap.length p hp
  rcases List.mem_append.1 this with h | h
  · exact Or.inl h
  · exact Or.inr (List.mem_singleton.1 h)

theorem getLastD_mem : ∀ (rest : List (ℕ × XDist)) (p : ℕ × XDist),
    rest.getLastD p ∈ p :: rest := by
  intro rest
  induction rest with
  | nil => intro p; exact List.mem_singleton.2 rfl
  | cons a l ih =>
    intro p
    rw [List.getLastD_cons]
    exact List.mem_cons_of_mem p (ih a)

theorem hExtractMin_mem (s : MinHeap) (u : ℕ) (s' : MinHeap)
    (h : hExtractMin s = (some u, s')) : ∀ p ∈ s'.heap, p ∈ s.heap := by
  obtain ⟨hl, ps⟩ := s
  cases hl with
  | nil => simp [hExtractMin] at h
  | cons q rest =>
    intro p hp
    simp only [hExtractMin] at h
    split at h
    · rename_i hemp
      rw [Prod.mk.injEq] at h
      obtain ⟨hu, hs'⟩ := h
      subst hs'
      rw [List.isEmpty_iff] at hemp
      rw [hemp] at hp
      cases hp
    · rw [Prod.mk.injEq] at h
      obtain ⟨hu, hs'⟩ := h
      subst hs'
      have hmem := bubbleDown_mem _ 0 p hp
      rcases List.mem_or_eq_of_mem_set hmem with h1 | h1
      · exact (List.dropLast_sublist _).subset h1
      · rw [h1]
        exact getLastD_mem rest q

theorem hDecreaseKey_mem (s : MinHeap) (v : ℕ) (nd : XDist) :
    ∀ p ∈ (hDecreaseKey s v nd).heap,
      p ∈ s.heap ∨ ∃ q ∈ s.heap, p = (q.1, nd) := by
  intro p hp
  unfold hDecreaseKey at hp
  split at hp
  · exact Or.inl hp
  · rename_i idx hidx
    split at hp
    · rename_i hlt
      have := bubbleUpAux_mem idx _ idx p hp
      rcases List.mem_or_eq_of_mem_set this with h1 | h1
      · exact Or.inl h1
      · exact Or.inr ⟨hget s.heap idx, hget_mem _ _ hlt, h1⟩
    · exact Or.inl hp

theorem upd_self {α : Type} (f : ℕ → α) (a : ℕ) (d : α) : upd f a d a = d := by
  simp [upd]

/-- Generic preservation of a predicate along a left fold. -/
theorem foldl_pres {γ α : Type} (Q : γ → Prop) (g : γ → α → γ)
    (h : ∀ c a, Q c → Q (g c a)) : ∀ (l : List α) (c : γ), Q c → Q (l.foldl g c) := by
  intro l
  induction l with
  | nil => intro c hc; exact hc
  | cons a l ih => intro c hc; exact ih (g c a) (h c a hc)

theorem baseEdge_complete (B : XDist) (u : ℕ) (c : SState × MinHeap × List ℕ)
    (e : ℕ × ℤ) : (baseEdge B u c e).1.complete = c.1.complete := by
  rcases c with ⟨st, hp, inH⟩
  rcases e with ⟨v, w⟩
  simp only [baseEdge]
  split
  · split <;> rfl
  · rfl

theorem hExtractMin_vertex (s : MinHeap) (u : ℕ) (s' : MinHeap)
    (h : hExtractMin s = (some u, s')) : ∃ d, (u, d) ∈ s.heap := by
  obtain ⟨hl, ps⟩ := s
  cases hl with
  | nil => simp [hExtractMin] at h
  | cons q rest =>
    simp only [hExtractMin] at h
    have hq : u = q.1 := by
      split at h <;> · rw [Prod.mk.injEq] at h; exact (Option.some.injEq .. ▸ h.1).symm
    exact ⟨q.2, by rw [hq]; exact List.mem_cons_self q rest⟩

theorem baseEdge_heapB (B : XDist) (u s0 : ℕ) (c : SState × MinHeap × List ℕ)
    (e : ℕ × ℤ)
    (hc : ∀ p ∈ c.2.1.heap, p.1 = s0 ∨ c.1.dist p.1 < B) :
    ∀ p ∈ (baseEdge B u c e).2.1.heap,
      p.1 = s0 ∨ (baseEdge B u c e).1.dist p.1 < B := by
  rcases c with ⟨st, hp, inH⟩
  rcases e with ⟨v, w⟩
  simp only [baseEdge]
  split
  · rename_i hcond
    have hmono : ∀ x, upd st.dist v (st.dist u + (w : ℤ)) x ≤ st.dist x :=
      upd_le st.dist v _ (le_of_lt hcond.1)
    split
    · intro p hpmem
      rcases hDecreaseKey_mem hp v _ p hpmem with h1 | ⟨q, hq, hpq⟩
      · rcases hc p h1 with h | h
        · exact Or.inl h
        · exact Or.inr (lt_of_le_of_lt (hmono p.1) h)
      · rcases hc q hq with h | h
        · left; rw [hpq]; exact h
        · right; rw [hpq]; exact lt_of_le_of_lt (hmono q.1) h
    · intro p hpmem
      rcases hInsert_mem hp v _ p hpmem with h1 | h1
      · rcases hc p h1 with h | h
        · exact Or.inl h
        · exact Or.inr (lt_of_le_of_lt (hmono p.1) h)
      · right
        rw [h1]
        show upd st.dist v (st.dist u + (w : ℤ)) v < B
        rw [upd_self]
        exact hcond.2
  · exact hc

theorem baseLoop_inv (g : Graph) (B : XDist) (s0 : ℕ) :
    ∀ (f : ℕ) (st : SState) (hp : MinHeap) (inH U : List ℕ) (st' : SState) (U' : List ℕ),
      baseLoop g B f st hp inH U = some (st', U') →
      (∀ p ∈ hp.heap, p.1 = s0 ∨ st.dist p.1 < B) →
      (∀ v ∈ U, v = s0 ∨ st.dist v < B) →
      (∀ v ∈ U, v ∈ U')
      ∧ (∀ v, st'.complete v = true → st.complete v = true ∨ v ∈ U')
      ∧ (∀ v ∈ U', v = s0 ∨ st'.dist v < B) := by
  intro f
  induction f with
  | zero =>
    intro st hp inH U st' U' h hheap hU
    simp only [baseLoop] at h
    split at h
    · cases h
      exact ⟨fun v hv => hv, fun v hv => Or.inl hv, hU⟩
    · cases h
  | succ f ih =>
    intro st hp inH U st' U' h hheap hU
    simp only [baseLoop] at h
    split at h
    · cases h
      exact ⟨fun v hv => hv, fun v hv => Or.inl hv, hU⟩
    · rename_i u hp1 hext
      obtain ⟨du, hdu⟩ := hExtractMin_vertex hp u hp1 hext
      have hu : u = s0 ∨ st.dist u < B := by
        rcases hheap (u, du) hdu with h1 | h1
        · exact Or.inl h1
        · exact Or.inr h1
      have hheap1 : ∀ p ∈ hp1.heap, p.1 = s0 ∨ st.dist p.1 < B :=
        fun p hp' => hheap p (hExtractMin_mem hp u hp1 hext p hp')
      have hfold := foldl_pres
        (fun c : SState × MinHeap × List ℕ =>
          ∀ p ∈ c.2.1.heap, p.1 = s0 ∨ c.1.dist p.1 < B)
        (baseEdge B u) (fun c e hc => baseEdge_heapB B u s0 c e hc) (g.adj u)
        ({ st with complete := upd st.complete u true }, hp1, inH.erase u) hheap1
      have hdist := foldl_rel
        (fun a b : SState × MinHeap × List ℕ => ∀ v, a.1.dist v ≤ b.1.dist v)
        (fun c v => le_refl _) (fun a b c h1 h2 v => le_trans (h1 v) (h2 v))
        (baseEdge B u) (fun c e => baseEdge_dist_le B u c e) (g.adj u)
        ({ st with complete := upd st.complete u true }, hp1, inH.erase u)
      have hcomp := foldl_rel
        (fun a b : SState × MinHeap × List ℕ => a.1.complete = b.1.complete)
        (fun c => rfl) (fun a b c h1 h2 => h1.trans h2)
        (baseEdge B u) (fun c e => baseEdge_complete B u c e) (g.adj u)
        ({ st with complete := upd st.complete u true }, hp1, inH.erase u)
      have hU1 : ∀ v ∈ U ++ [u], v = s0 ∨
          ((g.adj u).foldl (baseEdge B u)
            ({ st with complete := upd st.complete u true }, hp1, inH.erase u)).1.dist v < B := by
        intro v hv
        rcases List.mem_append.1 hv with hv1 | hv1
        · rcases hU v hv1 with h1 | h1
          · exact Or.inl h1
          · exact Or.inr (lt_of_le_of_lt (hdist v) h1)
        · rw [List.mem_singleton.1 hv1]
          rcases hu with h1 | h1
          · exact Or.inl h1
          · exact Or.inr (lt_of_le_of_lt (hdist u) h1)
      obtain ⟨hsub, hcompl, hUfin⟩ := ih _ _ _ _ _ _ h hfold hU1
      refine ⟨?_, ?_, hUfin⟩
      · intro v hv
        exact hsub v (List.mem_append.2 (Or.inl hv))
      · intro v hv
        rcases hcompl v hv with h1 | h1
        · rw [hcomp] at h1
          by_cases hvu : v = u
          · subst hvu
            exact Or.inr (hsub _ (List.mem_append.2 (Or.inr (List.mem_singleton.2 rfl))))
          · left
            have : upd st.complete u true v = true := h1
            rw [upd] at this
            simpa [hvu] using this
        · exact Or.inr h1

/-- C10: a level-0 `BMSSP` (i.e. `baseCase`) call with a multi-vertex
seed set uses only `S[0]`: the result is identical to calling it with
the singleton seed (the remaining seeds are never used), a vertex is
newly complete only if it was extracted into `U`, and every member of
`U` other than the seed has final distance `< B` (it entered the heap
through a relaxation below the bound). -/
theorem c10_baseCase_seed (g : Graph) (f : ℕ) (B : XDist) (s : ℕ) (rest : List ℕ)
    (st : SState) :
    baseCase g f B (s :: rest) st = baseCase g f B [s] st
    ∧ (∀ st' B' U, baseCase g f B (s :: rest) st = some (st', B', U) →
        (∀ v, st'.complete v = true → st.complete v = true ∨ v ∈ U)
        ∧ (∀ v ∈ U, v = s ∨ st'.dist v < B)) := by
  refine ⟨rfl, ?_⟩
  intro st' B' U h
  simp only [baseCase] at h
  rw [Option.map_eq_some'] at h
  obtain ⟨⟨st1, U1⟩, hbl, hfe⟩ := h
  cases hfe
  have hheap : ∀ p ∈ (hInsert hEmpty s (st.dist s)).heap, p.1 = s ∨ st.dist p.1 < B := by
    intro p hp
    rcases hInsert_mem hEmpty s (st.dist s) p hp with h1 | h1
    · cases h1
    · left; rw [h1]
  have hU0 : ∀ v ∈ ([] : List ℕ), v = s ∨ st.dist v < B :=
    fun v hv => absurd hv (List.not_mem_nil v)
  have hinv := baseLoop_inv g B s f st _ [s] [] st1 U1 hbl hheap hU0
  exact ⟨hinv.2.1, hinv.2.2⟩

/-- Witness for `c10_baseCase_seed`: its hypothesis discharged by `rfl`
on the one-vertex graph with seed set `[0, 3]`. -/
theorem c10_baseCase_seed_witness :
    (∀ v, ({ initState 0 with complete := upd (initState 0).complete 0 true } : SState).complete v = true →
        (initState 0).complete v = true ∨ v ∈ [0])
    ∧ (∀ v ∈ ([0] : List ℕ), v = 0 ∨
        ({ initState 0 with complete := upd (initState 0).complete 0 true } : SState).dist v < ⊤) :=
  (c10_baseCase_seed trivGraph 1 ⊤ 0 [3] (initState 0)).2
    { initState 0 with complete := upd (initState 0).complete 0 true } ⊤ [0] rfl

/-! ### Heap ordering lemmas (for the amended C6) -/

theorem hget_set_self (h : List (ℕ × XDist)) (i : ℕ) (p : ℕ × XDist)
    (hi : i < h.length) : hget (h.set i p) i = p := by
  rw [hget, List.getD_eq_getElem _ _ (by simpa using hi)]
  simp [List.getElem_set_self]

theorem hget_set_ne (h : List (ℕ × XDist)) (i k : ℕ) (p : ℕ × XDist)
    (hk : k ≠ i) : hget (h.set i p) k = hget h k := by
  by_cases hkl : k < h.length
  · rw [hget, List.getD_eq_getElem _ _ (by simpa using hkl), hget,
      List.getD_eq_getElem _ _ hkl]
    exact List.getElem_set_ne (Ne.symm hk) _
  · rw [hget, List.getD_eq_default _ _ (by simpa using hkl), hget,
      List.getD_eq_default _ _ (by omega)]

theorem hswap_get_fst (s : MinHeap) (i j : ℕ) (hj : j < s.heap.length) :
    hget (hswap s i j).heap j = hget s.heap i := by
  simp only [hswap]
  exact hget_set_self _ j _ (by simpa using hj)

theorem hswap_get_snd (s : MinHeap) (i j : ℕ) (hi : i < s.heap.length)
    (hij : i ≠ j) : hget (hswap s i j).heap i = hget s.heap j := by
  simp only [hswap]
  rw [hget_set_ne _ _ _ _ hij, hget_set_self _ i _ hi]

theorem hswap_get_other (s : MinHeap) (i j k : ℕ) (hki : k ≠ i) (hkj : k ≠ j) :
    hget (hswap s i j).heap k = hget s.heap k := by
  simp only [hswap]
  rw [hget_set_ne _ _ _ _ hkj, hget_set_ne _ _ _ _ hki]

/-- One sift-up swap step: swapping a smaller cell with its parent moves
the `AlmostUp` violation point to the parent. -/
theorem almostUp_step (s : MinHeap) (idx : ℕ) (h0 : 0 < idx)
    (hlen : idx < s.heap.length)
    (hA : AlmostUp s.heap idx)
    (hviol : ¬ (hget s.heap ((idx - 1) / 2)).2 ≤ (hget s.heap idx).2) :
    AlmostUp (hswap s idx ((idx - 1) / 2)).heap ((idx - 1) / 2) := by
  have hp : (idx - 1) / 2 < idx := by omega
  have hplen : (idx - 1) / 2 < s.heap.length := by omega
  have hlt : (hget s.heap idx).2 < (hget s.heap ((idx - 1) / 2)).2 := lt_of_not_le hviol
  have hvp : hget (hswap s idx ((idx - 1) / 2)).heap ((idx - 1) / 2) = hget s.heap idx :=
    hswap_get_fst s idx ((idx - 1) / 2) hplen
  have hvi : hget (hswap s idx ((idx - 1) / 2)).heap idx = hget s.heap ((idx - 1) / 2) :=
    hswap_get_snd s idx ((idx - 1) / 2) hlen (by omega)
  have hvo : ∀ k, k ≠ idx → k ≠ (idx - 1) / 2 →
      hget (hswap s idx ((idx - 1) / 2)).heap k = hget s.heap k :=
    fun k h1 h2 => hswap_get_other s idx ((idx - 1) / 2) k h1 h2
  have hlen' : (hswap s idx ((idx - 1) / 2)).heap.length = s.heap.length :=
    hswap_length s idx ((idx - 1) / 2)
  constructor
  · intro j hj0 hjlen hjne
    rw [hlen'] at hjlen
    by_cases hji : j = idx
    · -- case 1: j = idx; its parent is (idx-1)/2, which now holds the old idx cell
      rw [hji, hvi, hvp]
      exact le_of_lt hlt
    · by_cases hpj : (j - 1) / 2 = idx
      · -- case 2a: j is a child of idx
        have hjgt : idx < j := by omega
        rw [hvo j hji hjne, hpj, hvi]
        exact hA.2 h0 j hj0 hjlen hpj
      · by_cases hpj2 : (j - 1) / 2 = (idx - 1) / 2
        · -- case 2b: j is a sibling of idx under the parent
          rw [hvo j hji hjne, hpj2, hvp]
          refine le_trans (le_of_lt hlt) ?_
          have := hA.1 j hj0 hjlen hji
          rw [hpj2] at this
          exact this
        · -- case 2c: j is unrelated
          rw [hvo j hji hjne, hvo _ hpj hpj2]
          exact hA.1 j hj0 hjlen hji
  · intro hp0 c hc0 hclen hpc
    rw [hlen'] at hclen
    have hpplen : ((idx - 1) / 2 - 1) / 2 < s.heap.length := by omega
    have hppne1 : ((idx - 1) / 2 - 1) / 2 ≠ idx := by omega
    have hppne2 : ((idx - 1) / 2 - 1) / 2 ≠ (idx - 1) / 2 := by omega
    rw [hvo _ hppne1 hppne2]
    have hcgt : (idx - 1) / 2 < c := by omega
    have hA1p := hA.1 ((idx - 1) / 2) hp0 hplen (by omega)
    by_cases hci : c = idx
    · rw [hci, hvi]
      exact hA1p
    · rw [hvo c hci (by omega)]
      refine le_trans hA1p ?_
      have := hA.1 c hc0 hclen hci
      rw [hpc] at this
      exact this

theorem almostUp_done (h : List (ℕ × XDist)) (idx : ℕ) (hA : AlmostUp h idx)
    (hok : idx = 0 ∨ (hget h ((idx - 1) / 2)).2 ≤ (hget h idx).2) : HeapProp h := by
  intro j hj0 hjlen
  by_cases hji : j = idx
  · subst hji
    rcases hok with h1 | h1
    · omega
    · exact h1
  · exact hA.1 j hj0 hjlen hji

theorem bubbleUpAux_heap :
    ∀ (fuel : ℕ) (s : MinHeap) (idx : ℕ), idx ≤ fuel → AlmostUp s.heap idx →
      HeapProp (bubbleUpAux fuel s idx).heap := by
  intro fuel
  induction fuel with
  | zero =>
    intro s idx hle hA
    have h0 : idx = 0 := by omega
    subst h0
    exact almostUp_done s.heap 0 hA (Or.inl rfl)
  | succ fuel ih =>
    intro s idx hle hA
    cases idx with
    | zero => exact almostUp_done s.heap 0 hA (Or.inl rfl)
    | succ idx' =>
      rw [bubbleUpAux]
      split
      · rename_i hcond
        exact almostUp_done s.heap (idx' + 1) hA (Or.inr hcond)
      · rename_i hcond
        have hrange : idx' + 1 < s.heap.length := by
          by_contra hge
          apply hcond
          have : hget s.heap (idx' + 1) = (0, ⊤) := by
            rw [hget, List.getD_eq_default]
            omega
          rw [this]
          exact le_top
        exact ih _ (idx' / 2) (by omega)
          (almostUp_step s (idx' + 1) (by omega) hrange hA hcond)

theorem hget_append_lt (h l : List (ℕ × XDist)) (i : ℕ) (hi : i < h.length) :
    hget (h ++ l) i = hget h i := by
  rw [hget, hget, List.getD_eq_getElem _ _ (by simp; omega), List.getD_eq_getElem _ _ hi]
  exact List.getElem_append_left ..

theorem hInsert_heapProp (s : MinHeap) (v : ℕ) (d : XDist)
    (h : HeapProp s.heap) : HeapProp (hInsert s v d).heap := by
  apply bubbleUpAux_heap _ _ _ (le_refl _)
  constructor
  · intro j hj0 hjlen hjne
    have hjl : j < s.heap.length := by
      simp only [List.length_append, List.length_singleton] at hjlen
      omega
    have hpl : (j - 1) / 2 < s.heap.length := by omega
    rw [hget_append_lt _ _ _ hjl, hget_append_lt _ _ _ hpl]
    exact h j hj0 hjl
  · intro h0 j hj0 hjlen hpj
    exfalso
    simp only [List.length_append, List.length_singleton] at hjlen
    omega

theorem hDecreaseKey_heapProp (s : MinHeap) (v : ℕ) (nd : XDist)
    (hH : HeapProp s.heap) (hP : PosInv s)
    (hgood : ∀ p ∈ s.heap, p.1 = v → nd ≤ p.2) :
    HeapProp (hDecreaseKey s v nd).heap := by
  unfold hDecreaseKey
  split
  · exact hH
  · rename_i idx hpos
    split
    · rename_i hidx
      apply bubbleUpAux_heap _ _ _ (le_refl idx)
      have hx : (hget s.heap idx).1 = v := (hP v idx hpos).2
      have hnd : nd ≤ (hget s.heap idx).2 :=
        hgood (hget s.heap idx) (hget_mem _ _ hidx) hx
      constructor
      · intro j hj0 hjlen hjne
        rw [List.length_set] at hjlen
        rw [hget_set_ne _ _ _ _ hjne]
        by_cases hpj : (j - 1) / 2 = idx
        · rw [hpj, hget_set_self _ _ _ hidx]
          exact le_trans hnd (by rw [← hpj]; exact hH j hj0 hjlen)
        · rw [hget_set_ne _ _ _ _ hpj]
          exact hH j hj0 hjlen
      · intro h0 j hj0 hjlen hpj
        rw [List.length_set] at hjlen
        have hjgt : idx < j := by omega
        rw [hget_set_ne _ _ _ _ (by omega), hget_set_ne _ _ _ _ (by omega)]
        refine le_trans (hH idx h0 hidx) ?_
        rw [← hpj]
        exact hH j hj0 hjlen
    · exact hH

theorem almostDown_done (h : List (ℕ × XDist)) (idx : ℕ) (hA : AlmostDown h idx)
    (hok : ∀ j, 0 < j → j < h.length → (j - 1) / 2 = idx →
      (hget h idx).2 ≤ (hget h j).2) : HeapProp h := by
  intro j hj0 hjlen
  by_cases hpj : (j - 1) / 2 = idx
  · rw [hpj]
    exact hok j hj0 hjlen hpj
  · exact hA.1 j hj0 hjlen hpj

/-- One sift-down swap step: swapping `idx` with its smallest smaller
child `s2` moves the `AlmostDown` violation point to `s2`. -/
theorem almostDown_step (s : MinHeap) (idx s2 : ℕ)
    (hs2 : s2 = 2 * idx + 1 ∨ s2 = 2 * idx + 2)
    (hs2len : s2 < s.heap.length)
    (hlt : (hget s.heap s2).2 < (hget s.heap idx).2)
    (hmin : ∀ c, (c = 2 * idx + 1 ∨ c = 2 * idx + 2) → c < s.heap.length →
      (hget s.heap s2).2 ≤ (hget s.heap c).2)
    (hA : AlmostDown s.heap idx) :
    AlmostDown (hswap s idx s2).heap s2 := by
  have hgt : idx < s2 := by omega
  have hidxlen : idx < s.heap.length := by omega
  have hpas2 : (s2 - 1) / 2 = idx := by omega
  have hvi : hget (hswap s idx s2).heap idx = hget s.heap s2 :=
    hswap_get_snd s idx s2 hidxlen (by omega)
  have hvs : hget (hswap s idx s2).heap s2 = hget s.heap idx :=
    hswap_get_fst s idx s2 hs2len
  have hvo : ∀ k, k ≠ idx → k ≠ s2 →
      hget (hswap s idx s2).heap k = hget s.heap k :=
    fun k h1 h2 => hswap_get_other s idx s2 k h1 h2
  have hlen' : (hswap s idx s2).heap.length = s.heap.length := hswap_length s idx s2
  constructor
  · intro j hj0 hjlen hpj
    rw [hlen'] at hjlen
    by_cases hjs : j = s2
    · subst hjs
      rw [hpas2, hvi, hvs]
      exact le_of_lt hlt
    · by_cases hji : j = idx
      · subst hji
        have h0j : 0 < j := hj0
        have hpane : (j - 1) / 2 ≠ j := by omega
        rw [hvo ((j - 1) / 2) (by omega) (by omega), hvi]
        exact hA.2 hj0 s2 (by omega) hs2len hpas2
      · by_cases hpji : (j - 1) / 2 = idx
        · rw [hvo j hji hjs, hpji, hvi]
          exact hmin j (by omega) hjlen
        · rw [hvo j hji hjs, hvo ((j - 1) / 2) hpji hpj]
          exact hA.1 j hj0 hjlen hpji
  · intro h0 c hc0 hclen hpc
    rw [hlen'] at hclen
    have hcgt : s2 < c := by omega
    rw [hpas2, hvi, hvo c (by omega) (by omega)]
    have := hA.1 c hc0 hclen (by omega)
    rw [hpc] at this
    exact this

theorem bubbleDownAux_heap :
    ∀ (fuel n : ℕ) (s : MinHeap) (idx : ℕ), n = s.heap.length →
      n ≤ fuel + idx → AlmostDown s.heap idx →
      HeapProp (bubbleDownAux n fuel s idx).heap := by
  intro fuel
  induction fuel with
  | zero =>
    intro n s idx hn hle hA
    refine almostDown_done s.heap idx hA ?_
    intro j hj0 hjlen hpj
    omega
  | succ fuel ih =>
    intro n s idx hn hle hA
    rw [bubbleDownAux]
    split
    · rename_i h1
      split
      · rename_i h2
        refine ih n _ (2 * idx + 2) (by rw [hn, hswap_length]) (by omega) ?_
        refine almostDown_step s idx (2 * idx + 2) (Or.inr rfl) (by omega)
          (lt_trans h2.2 h1.2) ?_ hA
        intro c hc hclen
        rcases hc with hc | hc
        · subst hc; exact le_of_lt h2.2
        · subst hc; exact le_refl _
      · rename_i h2
        refine ih n _ (2 * idx + 1) (by rw [hn, hswap_length]) (by omega) ?_
        refine almostDown_step s idx (2 * idx + 1) (Or.inl rfl) (by omega) h1.2 ?_ hA
        intro c hc hclen
        rcases hc with hc | hc
        · subst hc; exact le_refl _
        · subst hc
          by_contra hcon
          exact h2 ⟨by omega, lt_of_not_le hcon⟩
    · rename_i h1
      split
      · rename_i h2
        refine ih n _ (2 * idx + 2) (by rw [hn, hswap_length]) (by omega) ?_
        refine almostDown_step s idx (2 * idx + 2) (Or.inr rfl) (by omega) h2.2 ?_ hA
        intro c hc hclen
        rcases hc with hc | hc
        · subst hc
          refine le_trans (le_of_lt h2.2) ?_
          by_contra hcon
          exact h1 ⟨by omega, lt_of_not_le hcon⟩
        · subst hc; exact le_refl _
      · rename_i h2
        refine almostDown_done s.heap idx hA ?_
        intro j hj0 hjlen hpj
        have hj12 : j = 2 * idx + 1 ∨ j = 2 * idx + 2 := by omega
        rcases hj12 with hj | hj
        · subst hj
          by_contra hcon
          exact h1 ⟨by omega, lt_of_not_le hcon⟩
        · subst hj
          by_contra hcon
          exact h2 ⟨by omega, lt_of_not_le hcon⟩

theorem hget_dropLast (l : List (ℕ × XDist)) (i : ℕ) (hi : i < l.length - 1) :
    hget l.dropLast i = hget l i := by
  rw [hget, hget, List.getD_eq_getElem _ _ (by simp [List.length_dropLast]; omega),
    List.getD_eq_getElem _ _ (by omega)]
  exact List.getElem_dropLast ..

theorem hExtractMin_heapProp (s : MinHeap) (hH : HeapProp s.heap) :
    HeapProp (hExtractMin s).2.heap := by
  obtain ⟨hl, ps⟩ := s
  cases hl with
  | nil => exact hH
  | cons q rest =>
    simp only [hExtractMin]
    split
    · rename_i hemp
      intro j hj0 hjlen
      exfalso
      rw [List.isEmpty_iff] at hemp
      rw [hemp] at hjlen
      simp at hjlen
    · rename_i hemp
      have hlen1 : ((q :: rest).dropLast.set 0 (rest.getLastD q)).length =
          (q :: rest).length - 1 := by
        simp [List.length_set, List.length_dropLast]
      apply bubbleDownAux_heap _ _ _ 0 rfl (by omega)
      constructor
      · intro j hj0 hjlen hpj
        rw [hlen1] at hjlen
        have hjd : j < (q :: rest).length - 1 := hjlen
        have hpd : (j - 1) / 2 < (q :: rest).length - 1 := by omega
        rw [hget_set_ne _ _ _ _ hpj, hget_set_ne _ _ _ _ (by omega : j ≠ 0),
          hget_dropLast _ _ hjd, hget_dropLast _ _ hpd]
        have hH' : HeapProp (q :: rest) := hH
        exact hH' j hj0 (by omega)
      · intro h0
        exact absurd h0 (lt_irrefl 0)

theorem posGet_cons (p : ℕ × ℕ) (ps : List (ℕ × ℕ)) (w : ℕ) :
    posGet (p :: ps) w = if p.1 = w then some p.2 else posGet ps w := by
  by_cases h : p.1 = w <;> simp [posGet, List.find?_cons, h]

theorem posSet_cons (p : ℕ × ℕ) (ps : List (ℕ × ℕ)) (v i : ℕ) :
    posSet (p :: ps) v i =
      if p.1 = v then (v, i) :: ps.map (fun q => if q.1 == v then (v, i) else q)
      else p :: posSet ps v i := by
  simp only [posSet]
  by_cases hp : p.1 = v
  · simp [List.any_cons, hp]
  · cases hq : ps.any (fun q => q.1 == v) <;>
      simp [List.any_cons, hp, hq, List.cons_append]

theorem posGet_map_setkey (ps : List (ℕ × ℕ)) (v i w : ℕ) (hw : w ≠ v) :
    posGet (ps.map (fun q => if q.1 == v then (v, i) else q)) w = posGet ps w := by
  induction ps with
  | nil => rfl
  | cons p ps ih =>
    simp only [List.map_cons]
    by_cases hp : p.1 = v
    · rw [show (if p.1 == v then (v, i) else p) = (v, i) by simp [hp]]
      rw [posGet_cons, posGet_cons, if_neg (fun hc => hw hc.symm),
        if_neg (fun hc : p.1 = w => hw (by rw [← hc, hp]))]
      exact ih
    · rw [show (if p.1 == v then (v, i) else p) = p by simp [hp]]
      rw [posGet_cons, posGet_cons]
      by_cases hpw : p.1 = w
      · simp [hpw]
      · rw [if_neg hpw, if_neg hpw]
        exact ih

theorem posGet_posSet_self (ps : List (ℕ × ℕ)) (v i : ℕ) :
    posGet (posSet ps v i) v = some i := by
  induction ps with
  | nil => simp [posSet, posGet, List.find?]
  | cons p ps ih =>
    rw [posSet_cons]
    by_cases hp : p.1 = v
    · rw [if_pos hp, posGet_cons, if_pos rfl]
    · rw [if_neg hp, posGet_cons, if_neg hp]
      exact ih

theorem posGet_posSet_ne (ps : List (ℕ × ℕ)) (v i w : ℕ) (hw : w ≠ v) :
    posGet (posSet ps v i) w = posGet ps w := by
  induction ps with
  | nil =>
    have hbeq : (v == w) = false := by
      simp only [beq_eq_false_iff_ne]
      exact fun hc => hw hc.symm
    simp [posSet, posGet, List.find?, hbeq]
  | cons p ps ih =>
    rw [posSet_cons]
    by_cases hp : p.1 = v
    · rw [if_pos hp, posGet_cons, if_neg (fun hc => hw hc.symm), posGet_cons,
        if_neg (fun hc : p.1 = w => hw (by rw [← hc, hp]))]
      exact posGet_map_setkey ps v i w hw
    · rw [if_neg hp, posGet_cons, posGet_cons]
      by_cases hpw : p.1 = w
      · rw [if_pos hpw, if_pos hpw]
      · rw [if_neg hpw, if_neg hpw]
        exact ih

theorem posGet_posDelete_self (ps : List (ℕ × ℕ)) (v : ℕ) :
    posGet (posDelete ps v) v = none := by
  induction ps with
  | nil => rfl
  | cons p ps ih =>
    simp only [posDelete, List.filter_cons]
    by_cases hp : p.1 = v
    · simp only [hp, beq_self_eq_true, Bool.not_true, if_neg]
      simpa [posDelete] using ih
    · have : (!(p.1 == v)) = true := by simp [hp]
      rw [this, if_pos rfl, posGet_cons, if_neg hp]
      simpa [posDelete] using ih

theorem posGet_posDelete_ne (ps : List (ℕ × ℕ)) (v w : ℕ) (hw : w ≠ v) :
    posGet (posDelete ps v) w = posGet ps w := by
  induction ps with
  | nil => rfl
  | cons p ps ih =>
    simp only [posDelete, List.filter_cons]
    by_cases hp : p.1 = v
    · have : (!(p.1 == v)) = false := by simp [hp]
      rw [this, if_neg (by simp)]
      rw [posGet_cons, if_neg (fun hc : p.1 = w => hw (by rw [← hc, hp]))]
      simpa [posDelete] using ih
    · have : (!(p.1 == v)) = true := by simp [hp]
      rw [this, if_pos rfl, posGet_cons, posGet_cons]
      by_cases hpw : p.1 = w
      · rw [if_pos hpw, if_pos hpw]
      · rw [if_neg hpw, if_neg hpw]
        simpa [posDelete] using ih

theorem posinv_hswap (s : MinHeap) (i j : ℕ) (hi : i < s.heap.length)
    (hj : j < s.heap.length) (hij : i ≠ j) (hP : PosInv s) :
    PosInv (hswap s i j) := by
  intro w m hw
  have hA : hget (hswap s i j).heap i = hget s.heap j := hswap_get_snd s i j hi hij
  have hB : hget (hswap s i j).heap j = hget s.heap i := hswap_get_fst s i j hj
  have hlen : (hswap s i j).heap.length = s.heap.length := hswap_length s i j
  have hpos : (hswap s i j).positions =
      posSet (posSet s.positions (hget (hswap s i j).heap i).1 i)
        (hget (hswap s i j).heap j).1 j := rfl
  rw [hpos] at hw
  by_cases hwB : w = (hget (hswap s i j).heap j).1
  · rw [hwB, posGet_posSet_self] at hw
    cases hw
    rw [hlen]
    exact ⟨hj, hwB.symm⟩
  · rw [posGet_posSet_ne _ _ _ _ hwB] at hw
    by_cases hwA : w = (hget (hswap s i j).heap i).1
    · rw [hwA, posGet_posSet_self] at hw
      cases hw
      rw [hlen]
      exact ⟨hi, hwA.symm⟩
    · rw [posGet_posSet_ne _ _ _ _ hwA] at hw
      obtain ⟨hm, hv⟩ := hP w m hw
      have hmi : m ≠ i := by
        intro hc
        subst hc
        exact hwB (by rw [hB, hv])
      have hmj : m ≠ j := by
        intro hc
        subst hc
        exact hwA (by rw [hA, hv])
      rw [hlen]
      exact ⟨hm, by rw [hswap_get_other s i j m hmi hmj]; exact hv⟩

theorem posinv_bubbleUpAux :
    ∀ (fuel : ℕ) (s : MinHeap) (idx : ℕ), PosInv s →
      PosInv (bubbleUpAux fuel s idx) := by
  intro fuel
  induction fuel with
  | zero => intro s idx hP; cases idx <;> exact hP
  | succ fuel ih =>
    intro s idx hP
    cases idx with
    | zero => exact hP
    | succ idx' =>
      rw [bubbleUpAux]
      split
      · exact hP
      · rename_i hcond
        have hrange : idx' + 1 < s.heap.length := by
          by_contra hge
          apply hcond
          have : hget s.heap (idx' + 1) = (0, ⊤) := by
            rw [hget, List.getD_eq_default]
            omega
          rw [this]
          exact le_top
        exact ih _ _ (posinv_hswap s (idx' + 1) (idx' / 2) hrange (by omega) (by omega) hP)

theorem posinv_bubbleDownAux :
    ∀ (fuel n : ℕ) (s : MinHeap) (idx : ℕ), n = s.heap.length → PosInv s →
      PosInv (bubbleDownAux n fuel s idx) := by
  intro fuel
  induction fuel with
  | zero => intro n s idx hn hP; exact hP
  | succ fuel ih =>
    intro n s idx hn hP
    rw [bubbleDownAux]
    split
    · rename_i h1
      split
      · rename_i h2
        exact ih n _ _ (by rw [hn, hswap_length])
          (posinv_hswap s idx (2 * idx + 2) (by omega) (by omega) (by omega) hP)
      · exact ih n _ _ (by rw [hn, hswap_length])
          (posinv_hswap s idx (2 * idx + 1) (by omega) (by omega) (by omega) hP)
    · split
      · rename_i h2
        exact ih n _ _ (by rw [hn, hswap_length])
          (posinv_hswap s idx (2 * idx + 2) (by omega) (by omega) (by omega) hP)
      · exact hP

theorem hget_append_self (h : List (ℕ × XDist)) (x : ℕ × XDist) :
    hget (h ++ [x]) h.length = x := by
  rw [hget, List.getD_eq_getElem _ _ (by simp)]
  exact List.getElem_concat_length h x h.length rfl _

theorem posinv_hInsert (s : MinHeap) (v : ℕ) (d : XDist) (hP : PosInv s) :
    PosInv (hInsert s v d) := by
  apply posinv_bubbleUpAux
  intro w m hw
  by_cases hwv : w = v
  · subst hwv
    rw [posGet_posSet_self] at hw
    cases hw
    refine ⟨by simp, ?_⟩
    rw [hget_append_self]
  · rw [posGet_posSet_ne _ _ _ _ hwv] at hw
    obtain ⟨hm, hv⟩ := hP w m hw
    refine ⟨by simp; omega, ?_⟩
    rw [hget_append_lt _ _ _ hm]
    exact hv

theorem hget_last :
    ∀ (rest : List (ℕ × XDist)) (q : ℕ × XDist),
      hget (q :: rest) ((q :: rest).length - 1) = rest.getLastD q := by
  intro rest
  induction rest with
  | nil => intro q; rfl
  | cons a l ih =>
    intro q
    rw [List.getLastD_cons]
    have h1 : (q :: a :: l).length - 1 = (a :: l).length := by simp
    rw [h1]
    have h2 : hget (q :: a :: l) (a :: l).length = hget (a :: l) l.length := by
      show (q :: a :: l).getD (l.length + 1) (0, ⊤) = (a :: l).getD l.length (0, ⊤)
      rw [List.getD_cons_succ]
    rw [h2]
    exact ih a

theorem posinv_hExtractMin (s : MinHeap) (hP : PosInv s) :
    PosInv (hExtractMin s).2 := by
  obtain ⟨hl, ps⟩ := s
  cases hl with
  | nil => exact hP
  | cons q rest =>
    simp only [hExtractMin]
    split
    · rename_i hemp
      rw [List.isEmpty_iff] at hemp
      have hrest : rest = [] := by
        have h1 := congrArg List.length hemp
        simpa using h1
      intro w m hw
      by_cases hwq : w = q.1
      · rw [hwq, posGet_posDelete_self] at hw
        cases hw
      · rw [posGet_posDelete_ne _ _ _ hwq] at hw
        obtain ⟨hm, hv⟩ := hP w m hw
        exfalso
        subst hrest
        have hm0 : m = 0 := by simpa using hm
        subst hm0
        exact hwq hv.symm
    · rename_i hemp
      apply posinv_bubbleDownAux _ _ _ 0 rfl
      have hlen1 : ((q :: rest).dropLast.set 0 (rest.getLastD q)).length =
          (q :: rest).length - 1 := by
        simp [List.length_set, List.length_dropLast]
      have hpos : 0 < (q :: rest).length - 1 := by
        by_contra hc
        apply hemp
        rw [List.isEmpty_iff]
        have : (q :: rest).dropLast.length = 0 := by
          simp only [List.length_dropLast]
          omega
        exact List.eq_nil_of_length_eq_zero this
      intro w m hw
      by_cases hwl : w = (rest.getLastD q).1
      · rw [hwl, posGet_posSet_self] at hw
        cases hw
        refine ⟨by rw [hlen1]; omega, ?_⟩
        rw [hget_set_self _ _ _ (by simp only [List.length_dropLast]; omega)]
        exact hwl.symm
      · rw [posGet_posSet_ne _ _ _ _ hwl] at hw
        by_cases hwq : w = q.1
        · rw [hwq, posGet_posDelete_self] at hw
          cases hw
        · rw [posGet_posDelete_ne _ _ _ hwq] at hw
          obtain ⟨hm, hv⟩ := hP w m hw
          have hm2 : m < (q :: rest).length := hm
          have hv2 : (hget (q :: rest) m).1 = w := hv
          have hm0 : m ≠ 0 := by
            intro hc
            subst hc
            exact hwq hv2.symm
          have hmlast : m ≠ (q :: rest).length - 1 := by
            intro hc
            apply hwl
            rw [← hv2, hc, hget_last]
          refine ⟨by rw [hlen1]; omega, ?_⟩
          rw [hget_set_ne _ _ _ _ hm0, hget_dropLast _ _ (by omega)]
          exact hv2

theorem posinv_hDecreaseKey (s : MinHeap) (v : ℕ) (nd : XDist) (hP : PosInv s) :
    PosInv (hDecreaseKey s v nd) := by
  unfold hDecreaseKey
  split
  · exact hP
  · rename_i idx hpos
    split
    · rename_i hidx
      apply posinv_bubbleUpAux
      intro w m hw
      obtain ⟨hm, hv⟩ := hP w m hw
      refine ⟨by simpa using hm, ?_⟩
      by_cases hmi : m = idx
      · subst hmi
        rw [hget_set_self _ _ _ hidx]
        exact hv
      · rw [hget_set_ne _ _ _ _ hmi]
        exact hv
    · exact hP

theorem heapInv_hInsert (s : MinHeap) (v : ℕ) (d : XDist) (h : HeapInv s) :
    HeapInv (hInsert s v d) :=
  ⟨hInsert_heapProp s v d h.1, posinv_hInsert s v d h.2⟩

theorem heapInv_hDecreaseKey (s : MinHeap) (v : ℕ) (nd : XDist) (h : HeapInv s)
    (hgood : ∀ p ∈ s.heap, p.1 = v → nd ≤ p.2) : HeapInv (hDecreaseKey s v nd) :=
  ⟨hDecreaseKey_heapProp s v nd h.1 h.2 hgood, posinv_hDecreaseKey s v nd h.2⟩

theorem heapInv_hExtractMin (s : MinHeap) (h : HeapInv s) :
    HeapInv (hExtractMin s).2 :=
  ⟨hExtractMin_heapProp s h.1, posinv_hExtractMin s h.2⟩

theorem heapInv_empty : HeapInv hEmpty := by
  constructor
  · intro j hj0 hjlen
    simp [hEmpty] at hjlen
  · intro w m hw
    cases hw

theorem goodRun_inv : ∀ (ops : List HOp) (s : MinHeap), HeapInv s → GoodFrom s ops →
    HeapInv (ops.foldl applyOp s) := by
  intro ops
  induction ops with
  | nil => intro s h _; exact h
  | cons op rest ih =>
    intro s h hg
    refine ih (applyOp s op) ?_ hg.2
    cases op with
    | ins v d => exact heapInv_hInsert s v d h
    | dec v d => exact heapInv_hDecreaseKey s v d h hg.1

theorem runOps_inv (ops : List HOp) (h : GoodFrom hEmpty ops) : HeapInv (runOps ops) :=
  goodRun_inv ops hEmpty heapInv_empty h

theorem heapProp_root_min (h : List (ℕ × XDist)) (hH : HeapProp h) :
    ∀ i, i < h.length → (hget h 0).2 ≤ (hget h i).2 := by
  intro i
  induction i using Nat.strong_induction_on with
  | _ i ih =>
    intro hi
    rcases Nat.eq_zero_or_pos i with h0 | h0
    · subst h0; exact le_refl _
    · exact le_trans (ih ((i - 1) / 2) (by omega) (by omega)) (hH i h0 hi)

theorem heapProp_head_min (h : List (ℕ × XDist)) (hH : HeapProp h) :
    ∀ p ∈ h, (hget h 0).2 ≤ p.2 := by
  intro p hp
  rw [List.mem_iff_getElem] at hp
  obtain ⟨i, hi, hpi⟩ := hp
  have := heapProp_root_min h hH i hi
  simp only [hget] at this ⊢
  rw [List.getD_eq_getElem _ _ hi, hpi] at this
  exact this

theorem hExtractMin_min (s : MinHeap) (hH : HeapProp s.heap) (u : ℕ) (s' : MinHeap)
    (h : hExtractMin s = (some u, s')) :
    ∃ d, (u, d) ∈ s.heap ∧ ∀ p ∈ s.heap, d ≤ p.2 := by
  obtain ⟨hl, ps⟩ := s
  cases hl with
  | nil => simp [hExtractMin] at h
  | cons q rest =>
    simp only [hExtractMin] at h
    have hq : u = q.1 := by
      split at h <;> · rw [Prod.mk.injEq] at h; exact (Option.some.injEq .. ▸ h.1).symm
    refine ⟨q.2, by rw [hq]; exact List.mem_cons_self q rest, ?_⟩
    intro p hp
    exact heapProp_head_min (q :: rest) hH p hp

theorem hExtractMin_mem2 (s : MinHeap) :
    ∀ p ∈ (hExtractMin s).2.heap, p ∈ s.heap := by
  obtain ⟨hl, ps⟩ := s
  cases hl with
  | nil => intro p hp; exact hp
  | cons q rest =>
    intro p hp
    simp only [hExtractMin] at hp
    split at hp
    · exact (List.dropLast_sublist _).subset hp
    · have hmem := bubbleDown_mem _ 0 p hp
      rcases List.mem_or_eq_of_mem_set hmem with h1 | h1
      · exact (List.dropLast_sublist _).subset h1
      · rw [h1]
        exact getLastD_mem rest q

theorem drainKeys_mem : ∀ (fuel : ℕ) (s : MinHeap) (x : XDist),
    x ∈ drainKeys fuel s → ∃ p ∈ s.heap, x = p.2 := by
  intro fuel
  induction fuel with
  | zero => intro s x hx; cases hx
  | succ fuel ih =>
    intro s x hx
    simp only [drainKeys] at hx
    split at hx
    · cases hx
    · rename_i q rest hh
      rcases List.mem_cons.1 hx with h1 | h1
      · exact ⟨q, by rw [hh]; exact List.mem_cons_self q rest, h1⟩
      · obtain ⟨p, hp, hxp⟩ := ih _ x h1
        exact ⟨p, hExtractMin_mem2 s p hp, hxp⟩

theorem drainKeys_sorted : ∀ (fuel : ℕ) (s : MinHeap), HeapInv s →
    List.Sorted (fun a b : XDist => a ≤ b) (drainKeys fuel s) := by
  intro fuel
  induction fuel with
  | zero => intro s _; exact List.sorted_nil
  | succ fuel ih =>
    intro s hInv
    simp only [drainKeys]
    split
    · exact List.sorted_nil
    · rename_i q rest hh
      rw [List.sorted_cons]
      refine ⟨?_, ih _ (heapInv_hExtractMin s hInv)⟩
      intro x hx
      obtain ⟨p, hp, hxp⟩ := drainKeys_mem fuel _ x hx
      have hp' : p ∈ s.heap := hExtractMin_mem2 s p hp
      have hmin := heapProp_head_min s.heap hInv.1 p hp'
      rw [hh] at hmin
      rw [hxp]
      exact hmin

/-- C6 amended: for every sequence of `insert`/`decreaseKey` operations
in which each `decreaseKey` uses a new distance no larger than the
vertex's currently stored distances, `extractMin` returns a vertex whose
stored distance is `≤` that of every stored pair, and repeatedly calling
`extractMin` yields stored distances in non-decreasing order. -/
theorem c6_minheap_contract :
    ∀ ops : List HOp, GoodFrom hEmpty ops →
      (∀ u s', hExtractMin (runOps ops) = (some u, s') →
        ∃ d, (u, d) ∈ (runOps ops).heap ∧ ∀ p ∈ (runOps ops).heap, d ≤ p.2)
      ∧ (∀ fuel, List.Sorted (fun a b : XDist => a ≤ b)
          (drainKeys fuel (runOps ops))) := by
  intro ops hg
  have hInv := runOps_inv ops hg
  exact ⟨fun u s' hext => hExtractMin_min (runOps ops) hInv.1 u s' hext,
    fun fuel => drainKeys_sorted fuel (runOps ops) hInv⟩

theorem c6_minheap_contract_witness :
    GoodFrom hEmpty [HOp.ins 0 2, HOp.ins 1 1, HOp.dec 1 0] ∧
      List.Sorted (fun a b : XDist => a ≤ b)
        (drainKeys 3 (runOps [HOp.ins 0 2, HOp.ins 1 1, HOp.dec 1 0])) := by
  have hg : GoodFrom hEmpty [HOp.ins 0 2, HOp.ins 1 1, HOp.dec 1 0] := by
    simp only [GoodFrom, goodOp, applyOp]
    refine ⟨trivial, trivial, ?_, trivial⟩
    decide
  exact ⟨hg, (c6_minheap_contract [HOp.ins 0 2, HOp.ins 1 1, HOp.dec 1 0] hg).2 3⟩
